import Mathlib

/-!
Verification of the module/service lifecycle orchestrator and the hand-rolled
HTTP routing core of the backend framework.

The embedding translates the TypeScript sources:
  * src/core/module-manager.ts        (ModuleManager)
  * src/core/middleware-manager.ts    (MiddlewareManager, found in the
                                       config-provider.ts bundle)
  * src/modules/api/api-routes-module.ts (custom HttpServer with parsing,
                                       routing and CORS)
  * src/modules/api/route-manager.ts  (RouteManager)

JavaScript Map and Set preserve insertion order; they are embedded as lists.
JavaScript machine integers do not occur in the verified fragment except as
middleware priorities (embedded as Int) and HTTP status codes (Nat).
-/

/-- A registered module, from the IModule contract:
name, version, dependencies, initialise(), shutdown(), isEnabled().
`enabled` embeds the value returned by isEnabled(); `initOk` embeds whether
the module's initialise() promise resolves (true) or rejects (false).
Shutdown hooks always get invoked and their failures are caught and only
logged by ModuleManager.shutdown, so no field is needed for them. -/
structure SysModule where
  name : String
  version : String
  dependencies : List String
  enabled : Bool
  initOk : Bool

/-- Names of the registered modules, in registration order
(iteration order of the modules Map). -/
def modNames (M : List SysModule) : List String := M.map (·.name)

/-- First registered module with the given name (Map.get). -/
def findModule (M : List SysModule) (n : String) : Option SysModule :=
  M.find? (fun m => m.name == n)

/-- JavaScript new Set(array): deduplicate keeping first occurrences,
in insertion order. -/
def jsSetGo : List String → List String → List String
  | [], _ => []
  | a :: l, seen => if a ∈ seen then jsSetGo l seen else a :: jsSetGo l (a :: seen)

def jsSet (l : List String) : List String := jsSetGo l []

/-- dependencyGraph.get(name) || new Set(): the dependency-set entry built at
registration (buildDependencyGraph stores new Set(module.dependencies));
an unregistered name has no entry, giving the empty set. -/
def depsOf (M : List SysModule) (n : String) : List String :=
  match findModule M n with
  | some m => jsSet m.dependencies
  | none => []

/-- Every name a DFS can ever push on the recursion stack: module names and
all declared dependency names.  Used only to size the fuel of the embedded
recursions. -/
def univNames (M : List SysModule) : List String :=
  M.map (·.name) ++ M.flatMap (·.dependencies)

def fuelOf (M : List SysModule) : Nat := (univNames M).length + 1

/-- Errors of the embedded depth-first traversals: a detected cycle, or fuel
exhaustion (an artefact of the embedding, proved unreachable below). -/
inductive DErr where
  | cycle
  | fuel
deriving DecidableEq

instance {e a : Type} [DecidableEq e] [DecidableEq a] : DecidableEq (Except e a) :=
  fun x y =>
    match x, y with
    | .ok u, .ok v => decidable_of_iff (u = v) (by simp)
    | .error u, .error v => decidable_of_iff (u = v) (by simp)
    | .ok _, .error _ => isFalse (by simp)
    | .error _, .ok _ => isFalse (by simp)

/-- The recursive visit closure of ModuleManager.getInitialisationOrder.
One list plays both roles of the source's visited set and sorted array:
the source adds every node to both together (visited.add(m);
sorted.push(m)), so their contents always coincide.  The loop over the
dependencies is the foldl; a thrown error short-circuits it exactly as the
source's exception does.  Fuel bounds the recursion depth; each visit call
runs its dependency loop at one fuel unit less. -/
def orderVisit (M : List SysModule) : Nat → String → List String → List String →
    Except DErr (List String)
  | 0, _, _, _ => .error .fuel
  | f + 1, m, visiting, sorted =>
    if m ∈ visiting then .error .cycle
    else if m ∈ sorted then .ok sorted
    else
      ((depsOf M m).foldl
        (fun (acc : Except DErr (List String)) d =>
          acc.bind (orderVisit M f d (m :: visiting))) (.ok sorted)).map
        (fun s => s ++ [m])

/-- ModuleManager.getInitialisationOrder: visit every registered module in
registration order, skipping already visited ones (the loop's
!visited.has check; orderVisit would skip them again anyway). -/
def getInitialisationOrder (M : List SysModule) : Except DErr (List String) :=
  (M.map (·.name)).foldl
    (fun acc n => acc.bind (fun s =>
      if n ∈ s then .ok s else orderVisit M (fuelOf M) n [] s))
    (.ok [])

/-- The recursive visit closure of ModuleManager.detectCircularDependencies.
The source's visit returns true when the node sits on the recursion stack
and the calling dependency loop then throws; merging the two, the embedded
visit raises the cycle error directly (observationally identical: the
throw happens before anything else, and the top-level call has an empty
stack so its return value is irrelevant).  The source adds the node to
visited before its dependency loop, hence the (m :: visited) seed. -/
def detectVisit (M : List SysModule) : Nat → String → List String → List String →
    Except DErr (List String)
  | 0, _, _, _ => .error .fuel
  | f + 1, m, visiting, visited =>
    if m ∈ visiting then .error .cycle
    else if m ∈ visited then .ok visited
    else
      (depsOf M m).foldl
        (fun (acc : Except DErr (List String)) d =>
          acc.bind (detectVisit M f d (m :: visiting))) (.ok (m :: visited))

/-- ModuleManager.detectCircularDependencies: run the detecting visit from
every registered module not yet visited. -/
def detectCircularDependencies (M : List SysModule) : Except DErr (List String) :=
  (M.map (·.name)).foldl
    (fun acc n => acc.bind (fun v =>
      if n ∈ v then .ok v else detectVisit M (fuelOf M) n [] v))
    (.ok [])

/-- Errors thrown by ModuleManager.initialise. -/
inductive InitError where
  | missingDep (moduleName dependency : String)
  | circular
  | fuelOut
  | initFail (moduleName : String)
deriving DecidableEq

/-- The missing-dependency scan of ModuleManager.validateDependencies:
first (module, dependency) pair, in registration/declaration order, whose
dependency is not a registered module. -/
def findMissing (M : List SysModule) : Option (String × String) :=
  M.findSome? (fun m =>
    ((jsSet m.dependencies).find? (fun d => !(M.map (·.name)).contains d)).map
      (fun d => (m.name, d)))

/-- ModuleManager.validateDependencies: missing-dependency check, then cycle
detection. -/
def validateDependencies (M : List SysModule) : Except InitError Unit :=
  match findMissing M with
  | some (m, d) => .error (.missingDep m d)
  | none =>
    match detectCircularDependencies M with
    | .error .cycle => .error .circular
    | .error .fuel => .error .fuelOut
    | .ok _ => .ok ()

/-- The initialisation loop of ModuleManager.initialise: walk the computed
order; for each name that resolves to a registered, enabled module, invoke
its initialiser (recorded in the trace); a rejected initialiser aborts the
loop and rethrows. -/
def runInits (M : List SysModule) : List String → List String →
    List String × Except InitError Unit
  | [], acc => (acc.reverse, .ok ())
  | n :: ns, acc =>
    match findModule M n with
    | none => runInits M ns acc
    | some m =>
      if m.enabled then
        if m.initOk then runInits M ns (n :: acc)
        else ((n :: acc).reverse, .error (.initFail n))
      else runInits M ns acc

/-- Manager state: the registered modules (in registration order) and the
isInitialised flag. -/
structure MM where
  modules : List SysModule
  isInitialised : Bool

/-- Result of a call to ModuleManager.initialise: the ordered list of module
names whose initialiser was invoked, the outcome (thrown error, if any),
and the manager state afterwards. -/
structure InitResult where
  trace : List String
  outcome : Except InitError Unit
  state : MM

/-- ModuleManager.initialise: no-op when already initialised; otherwise
validate (missing deps, cycles), compute the order, and initialise
enabled modules in that order.  Any thrown error leaves the manager state
unchanged (the isInitialised flag is only set after the loop completes). -/
def initialise (mm : MM) : InitResult :=
  if mm.isInitialised then ⟨[], .ok (), mm⟩
  else
    match validateDependencies mm.modules with
    | .error e => ⟨[], .error e, mm⟩
    | .ok _ =>
      match getInitialisationOrder mm.modules with
      | .error .cycle => ⟨[], .error .circular, mm⟩
      | .error .fuel => ⟨[], .error .fuelOut, mm⟩
      | .ok order =>
        match runInits mm.modules order [] with
        | (t, .ok _) => ⟨t, .ok (), { mm with isInitialised := true }⟩
        | (t, .error e) => ⟨t, .error e, mm⟩

/-- ModuleManager.shutdown: no-op when not initialised; otherwise walk the
initialisation order in reverse and invoke the shutdown hook of every name
that resolves to a registered module - note: with no isEnabled() check.
Individual shutdown failures are caught and logged, so the trace contains
every such module regardless of them.  The first component is the trace of
invoked shutdown hooks. -/
def shutdown (mm : MM) : List String × Except InitError MM :=
  if mm.isInitialised then
    match getInitialisationOrder mm.modules with
    | .error .cycle => ([], .error .circular)
    | .error .fuel => ([], .error .fuelOut)
    | .ok order =>
      ((order.reverse).filter (fun n => (findModule mm.modules n).isSome),
        .ok { mm with isInitialised := false })
  else ([], .ok mm)

/-- One dependency edge of the registered graph: b is a declared dependency
of the (registered) module named a. -/
def DepStep (M : List SysModule) (a b : String) : Prop := b ∈ depsOf M a

/-- The dependency graph of the registered modules contains a cycle. -/
def HasCycle (M : List SysModule) : Prop := ∃ a, Relation.TransGen (DepStep M) a a

section Sanity

example :
    getInitialisationOrder
      [⟨"db", "1", [], true, true⟩, ⟨"auth", "1", ["db"], true, true⟩,
       ⟨"api", "1", ["auth", "db"], true, true⟩] =
      .ok ["db", "auth", "api"] := by decide

example :
    getInitialisationOrder
      [⟨"a", "1", ["b"], true, true⟩, ⟨"b", "1", ["a"], true, true⟩] =
      .error .cycle := by decide

example :
    (initialise ⟨[⟨"a", "1", ["b"], true, true⟩, ⟨"b", "1", ["a"], true, true⟩],
      false⟩).trace = [] := by decide

example :
    (initialise ⟨[⟨"a", "1", [], true, true⟩, ⟨"b", "1", [], false, true⟩],
      false⟩).trace = ["a"] := by decide

example :
    (shutdown (initialise ⟨[⟨"a", "1", [], true, true⟩,
      ⟨"b", "1", [], false, true⟩], false⟩).state).1 = ["b", "a"] := by decide

end Sanity

/-! Helper lemmas about the embedding's primitive operations. -/

theorem mem_jsSetGo {x : String} :
    ∀ (l seen : List String), x ∈ jsSetGo l seen ↔ x ∈ l ∧ x ∉ seen := by
  intro l
  induction l with
  | nil => intro seen; simp [jsSetGo]
  | cons a l ih =>
    intro seen
    by_cases ha : a ∈ seen
    · simp only [jsSetGo, if_pos ha, ih]
      constructor
      · rintro ⟨hx, hns⟩; exact ⟨List.mem_cons_of_mem _ hx, hns⟩
      · rintro ⟨hx, hns⟩
        rcases List.mem_cons.mp hx with rfl | hx
        · exact absurd ha hns
        · exact ⟨hx, hns⟩
    · simp only [jsSetGo, if_neg ha, List.mem_cons, ih, not_or]
      constructor
      · rintro (rfl | ⟨hx, hxa, hns⟩)
        · exact ⟨Or.inl rfl, ha⟩
        · exact ⟨Or.inr hx, hns⟩
      · rintro ⟨rfl | hx, hns⟩
        · exact Or.inl rfl
        · by_cases hxa : x = a
          · exact Or.inl hxa
          · exact Or.inr ⟨hx, hxa, hns⟩

theorem mem_jsSet {x : String} {l : List String} : x ∈ jsSet l ↔ x ∈ l := by
  simp [jsSet, mem_jsSetGo]

theorem findModule_mem {M : List SysModule} {n : String} {m : SysModule}
    (h : findModule M n = some m) : m ∈ M ∧ m.name = n := by
  have h1 := List.mem_of_find?_eq_some h
  have h2 := List.find?_some h
  simp only [beq_iff_eq] at h2
  exact ⟨h1, h2⟩

theorem findModule_isSome_of_mem {M : List SysModule} {n : String}
    (h : n ∈ modNames M) : (findModule M n).isSome := by
  simp only [modNames, List.mem_map] at h
  obtain ⟨m, hm, rfl⟩ := h
  unfold findModule
  rw [List.find?_isSome]
  exact ⟨m, hm, by simp⟩

theorem depsOf_subset_univ {M : List SysModule} {x d : String}
    (h : d ∈ depsOf M x) : d ∈ univNames M := by
  unfold depsOf at h
  cases hf : findModule M x with
  | none => rw [hf] at h; simp at h
  | some m =>
    rw [hf] at h
    have hd : d ∈ m.dependencies := mem_jsSet.mp h
    have hm : m ∈ M := (findModule_mem hf).1
    exact List.mem_append_right _ (List.mem_flatMap.mpr ⟨m, hm, hd⟩)

theorem depStep_src_mem {M : List SysModule} {a b : String}
    (h : DepStep M a b) : a ∈ modNames M := by
  unfold DepStep depsOf at h
  cases hf : findModule M a with
  | none => rw [hf] at h; simp at h
  | some m =>
    obtain ⟨hm, hname⟩ := findModule_mem hf
    exact hname ▸ List.mem_map_of_mem _ hm

theorem nodup_subset_length_le {l1 l2 : List String}
    (h1 : l1.Nodup) (h2 : l1 ⊆ l2) : l1.length ≤ l2.length := by
  classical
  calc l1.length = l1.toFinset.card := (List.toFinset_card_of_nodup h1).symm
    _ ≤ l2.toFinset.card := Finset.card_le_card (by
        intro x hx
        simp only [List.mem_toFinset] at *
        exact h2 hx)
    _ ≤ l2.length := l2.toFinset_card_le

theorem foldl_bind_error (g : String → List String → Except DErr (List String))
    (e : DErr) :
    ∀ ds : List String,
      ds.foldl (fun (acc : Except DErr (List String)) d => acc.bind (g d)) (.error e) =
        .error e := by
  intro ds
  induction ds with
  | nil => rfl
  | cons d ds ih => simpa [Except.bind] using ih

theorem ok_bind {g : List String → Except DErr (List String)} {s : List String} :
    (Except.ok s : Except DErr (List String)).bind g = g s := rfl

/-! Fuel sufficiency: with the fuel chosen in the embedding, the traversals
never report fuel exhaustion, because the recursion stack holds distinct
names drawn from univNames. -/

theorem orderVisit_ne_fuel (M : List SysModule) :
    ∀ f m visiting sorted, m ∈ univNames M → visiting ⊆ univNames M →
      visiting.Nodup → (univNames M).length + 1 ≤ f + visiting.length →
      orderVisit M f m visiting sorted ≠ .error .fuel := by
  intro f
  induction f with
  | zero =>
    intro m visiting sorted _ hsub hnd hlen
    have := nodup_subset_length_le hnd hsub
    omega
  | succ f ih =>
    intro m visiting sorted hm hsub hnd hlen
    simp only [orderVisit]
    by_cases hv : m ∈ visiting
    · simp [hv]
    by_cases hs : m ∈ sorted
    · simp [hv, hs]
    simp only [if_neg hv, if_neg hs]
    have hstack : ∀ x ∈ m :: visiting, x ∈ univNames M := by
      intro x hx
      rcases List.mem_cons.mp hx with rfl | hx
      · exact hm
      · exact hsub hx
    have hndm : (m :: visiting).Nodup := List.nodup_cons.mpr ⟨hv, hnd⟩
    have hlen' : (univNames M).length + 1 ≤ f + (m :: visiting).length := by
      simp only [List.length_cons]; omega
    have hfold : ∀ (ds : List String) (s0 : List String),
        (∀ d ∈ ds, d ∈ univNames M) →
        ds.foldl (fun (acc : Except DErr (List String)) d =>
          acc.bind (orderVisit M f d (m :: visiting))) (.ok s0) ≠ .error .fuel := by
      intro ds
      induction ds with
      | nil => intro s0 _; simp
      | cons d ds ihds =>
        intro s0 hds
        rw [List.foldl_cons]
        cases hvisit : orderVisit M f d (m :: visiting) s0 with
        | error e =>
          have hne : e ≠ .fuel := fun he =>
            ih d (m :: visiting) s0 (hds d (List.mem_cons_self d ds))
              hstack hndm hlen' (he ▸ hvisit)
          rw [ok_bind, hvisit, foldl_bind_error _ _ ds]
          intro hc
          injection hc with h
          exact hne h
        | ok s1 =>
          rw [ok_bind, hvisit]
          exact ihds s1 (fun x hx => hds x (List.mem_cons_of_mem _ hx))
    intro hc
    cases hfoldr : (depsOf M m).foldl (fun (acc : Except DErr (List String)) d =>
        acc.bind (orderVisit M f d (m :: visiting))) (.ok sorted) with
    | error e =>
      have := hfold (depsOf M m) sorted (fun d hd => depsOf_subset_univ hd)
      rw [hfoldr] at hc this
      cases e with
      | cycle => simp [Except.map] at hc
      | fuel => exact this rfl
    | ok s1 => rw [hfoldr] at hc; simp [Except.map] at hc

theorem getInitialisationOrder_ne_fuel (M : List SysModule) :
    getInitialisationOrder M ≠ .error .fuel := by
  unfold getInitialisationOrder
  have hgen : ∀ (ns : List String) (s0 : List String), (∀ n ∈ ns, n ∈ univNames M) →
      ns.foldl (fun (acc : Except DErr (List String)) n => acc.bind (fun s =>
        if n ∈ s then .ok s else orderVisit M (fuelOf M) n [] s)) (.ok s0) ≠
        .error .fuel := by
    intro ns
    induction ns with
    | nil => intro s0 _; simp
    | cons n ns ihns =>
      intro s0 hns
      rw [List.foldl_cons, ok_bind]
      by_cases hn : n ∈ s0
      · simp only [if_pos hn]
        exact ihns s0 (fun x hx => hns x (List.mem_cons_of_mem _ hx))
      · simp only [if_neg hn]
        cases hvisit : orderVisit M (fuelOf M) n [] s0 with
        | error e =>
          have hne : e ≠ .fuel := fun he =>
            orderVisit_ne_fuel M (fuelOf M) n [] s0
              (hns n (List.mem_cons_self n ns)) (by simp) List.nodup_nil
              (by simp [fuelOf]) (he ▸ hvisit)
          rw [foldl_bind_error
            (fun k s => if k ∈ s then Except.ok s else orderVisit M (fuelOf M) k [] s) e ns]
          intro hc
          injection hc with h
          exact hne h
        | ok s1 =>
          exact ihns s1 (fun x hx => hns x (List.mem_cons_of_mem _ hx))
  refine hgen (M.map (·.name)) [] ?_
  intro n hn
  exact List.mem_append_left _ hn

/-! Soundness of cycle reporting: whenever the order-computing traversal
throws its circular-dependency error, the registered dependency graph
really contains a cycle.  The invariant: every name on the recursion stack
has a nonempty dependency path to the node currently visited. -/

theorem orderVisit_cycle_sound (M : List SysModule) :
    ∀ f m visiting sorted,
      orderVisit M f m visiting sorted = .error .cycle →
      (∀ x ∈ visiting, Relation.TransGen (DepStep M) x m) →
      HasCycle M := by
  intro f
  induction f with
  | zero => intro m visiting sorted h _; simp [orderVisit] at h
  | succ f ih =>
    intro m visiting sorted h hinv
    rw [orderVisit] at h
    by_cases hv : m ∈ visiting
    · exact ⟨m, hinv m hv⟩
    rw [if_neg hv] at h
    by_cases hs : m ∈ sorted
    · rw [if_pos hs] at h; exact absurd h (by simp)
    rw [if_neg hs] at h
    have hinv' : ∀ d ∈ depsOf M m, ∀ x ∈ m :: visiting,
        Relation.TransGen (DepStep M) x d := by
      intro d hd x hx
      rcases List.mem_cons.mp hx with rfl | hx
      · exact Relation.TransGen.single hd
      · exact (hinv x hx).tail hd
    have hfold : ∀ (ds : List String) (s0 : List String),
        (∀ d ∈ ds, ∀ x ∈ m :: visiting, Relation.TransGen (DepStep M) x d) →
        ds.foldl (fun (acc : Except DErr (List String)) d =>
          acc.bind (orderVisit M f d (m :: visiting))) (.ok s0) = .error .cycle →
        HasCycle M := by
      intro ds
      induction ds with
      | nil => intro s0 _ hc; simp at hc
      | cons d ds ihds =>
        intro s0 hds hc
        rw [List.foldl_cons, ok_bind] at hc
        cases hvisit : orderVisit M f d (m :: visiting) s0 with
        | error e =>
          rw [hvisit, foldl_bind_error _ _ ds] at hc
          injection hc with hce
          exact ih d (m :: visiting) s0 (hce ▸ hvisit)
            (hds d (List.mem_cons_self d ds))
        | ok s1 =>
          rw [hvisit] at hc
          exact ihds s1 (fun x hx => hds x (List.mem_cons_of_mem _ hx)) hc
    cases hfoldr : (depsOf M m).foldl (fun (acc : Except DErr (List String)) d =>
        acc.bind (orderVisit M f d (m :: visiting))) (.ok sorted) with
    | error e =>
      rw [hfoldr] at h
      have he : e = .cycle := by
        cases e with
        | cycle => rfl
        | fuel => exact absurd h (by simp [Except.map])
      exact hfold (depsOf M m) sorted (fun d hd => hinv' d hd) (he ▸ hfoldr)
    | ok s1 => rw [hfoldr] at h; exact absurd h (by simp [Except.map])

theorem getInitialisationOrder_cycle_sound (M : List SysModule)
    (h : getInitialisationOrder M = .error .cycle) : HasCycle M := by
  unfold getInitialisationOrder at h
  have hgen : ∀ (ns : List String) (s0 : List String),
      ns.foldl (fun (acc : Except DErr (List String)) n => acc.bind (fun s =>
        if n ∈ s then .ok s else orderVisit M (fuelOf M) n [] s)) (.ok s0) =
        .error .cycle →
      HasCycle M := by
    intro ns
    induction ns with
    | nil => intro s0 hc; simp at hc
    | cons n ns ihns =>
      intro s0 hc
      rw [List.foldl_cons, ok_bind] at hc
      by_cases hn : n ∈ s0
      · rw [if_pos hn] at hc; exact ihns s0 hc
      · rw [if_neg hn] at hc
        cases hvisit : orderVisit M (fuelOf M) n [] s0 with
        | error e =>
          rw [hvisit, foldl_bind_error
            (fun k s => if k ∈ s then Except.ok s else orderVisit M (fuelOf M) k [] s)
            e ns] at hc
          injection hc with hce
          exact orderVisit_cycle_sound M (fuelOf M) n [] s0 (hce ▸ hvisit) (by simp)
        | ok s1 =>
          rw [hvisit] at hc
          exact ihns s1 hc
  exact hgen (M.map (·.name)) [] h

/-- A dependency-respecting order: no duplicates, closed under dependencies
(with no self-dependency), and no element is a dependency of an earlier
element. -/
def GoodOrder (M : List SysModule) (s : List String) : Prop :=
  s.Nodup ∧
  (∀ x ∈ s, ∀ d ∈ depsOf M x, d ∈ s ∧ d ≠ x) ∧
  s.Pairwise (fun a b => b ∉ depsOf M a)

theorem goodOrder_nil (M : List SysModule) : GoodOrder M [] :=
  ⟨List.nodup_nil, by simp, List.Pairwise.nil⟩

theorem goodOrder_append (M : List SysModule) {s : List String} {m : String}
    (hg : GoodOrder M s) (hm : m ∉ s) (hdeps : ∀ d ∈ depsOf M m, d ∈ s) :
    GoodOrder M (s ++ [m]) := by
  obtain ⟨hnd, hcl, hpw⟩ := hg
  refine ⟨?_, ?_, ?_⟩
  · simp [List.nodup_append, hnd, hm]
  · intro x hx d hd
    rcases List.mem_append.mp hx with hx | hx
    · obtain ⟨h1, h2⟩ := hcl x hx d hd
      exact ⟨List.mem_append_left _ h1, h2⟩
    · have hxm : x = m := by simpa using hx
      subst hxm
      have h1 := hdeps d hd
      exact ⟨List.mem_append_left _ h1, fun hc => hm (hc ▸ h1)⟩
  · rw [List.pairwise_append]
    refine ⟨hpw, List.pairwise_singleton _ _, ?_⟩
    intro a ha b hb
    have hbm : b = m := by simpa using hb
    subst hbm
    intro hc
    exact hm ((hcl a ha b hc).1)

theorem orderVisit_ok (M : List SysModule) :
    ∀ f m visiting sorted s',
      orderVisit M f m visiting sorted = .ok s' →
      GoodOrder M sorted →
      GoodOrder M s' ∧ (∃ t, s' = sorted ++ t ∧ ∀ x ∈ t, x ∉ visiting) ∧ m ∈ s' := by
  intro f
  induction f with
  | zero => intro m visiting sorted s' h _; simp [orderVisit] at h
  | succ f ih =>
    intro m visiting sorted s' h hg
    rw [orderVisit] at h
    by_cases hv : m ∈ visiting
    · rw [if_pos hv] at h; exact absurd h (by simp)
    rw [if_neg hv] at h
    by_cases hs : m ∈ sorted
    · rw [if_pos hs] at h
      injection h with h
      subst h
      exact ⟨hg, ⟨[], by simp⟩, hs⟩
    rw [if_neg hs] at h
    have hfold : ∀ (ds : List String) (s0 s1 : List String),
        ds.foldl (fun (acc : Except DErr (List String)) d =>
          acc.bind (orderVisit M f d (m :: visiting))) (.ok s0) = .ok s1 →
        GoodOrder M s0 →
        GoodOrder M s1 ∧ (∃ t, s1 = s0 ++ t ∧ ∀ x ∈ t, x ∉ m :: visiting) ∧
          ∀ d ∈ ds, d ∈ s1 := by
      intro ds
      induction ds with
      | nil =>
        intro s0 s1 hc hg0
        simp only [List.foldl_nil] at hc
        injection hc with hc
        subst hc
        exact ⟨hg0, ⟨[], by simp⟩, by simp⟩
      | cons d ds ihds =>
        intro s0 s1 hc hg0
        rw [List.foldl_cons, ok_bind] at hc
        cases hvisit : orderVisit M f d (m :: visiting) s0 with
        | error e => rw [hvisit, foldl_bind_error _ _ ds] at hc; exact absurd hc (by simp)
        | ok sd =>
          rw [hvisit] at hc
          obtain ⟨hgd, ⟨t1, ht1, ht1v⟩, hdm⟩ := ih d (m :: visiting) s0 sd hvisit hg0
          obtain ⟨hg1, ⟨t2, ht2, ht2v⟩, hds1⟩ := ihds sd s1 hc hgd
          refine ⟨hg1, ⟨t1 ++ t2, by rw [ht2, ht1, List.append_assoc], ?_⟩, ?_⟩
          · intro x hx
            rcases List.mem_append.mp hx with hx | hx
            · exact ht1v x hx
            · exact ht2v x hx
          · intro x hx
            rcases List.mem_cons.mp hx with rfl | hx
            · rw [ht2]; exact List.mem_append_left _ hdm
            · exact hds1 x hx
    cases hfoldr : (depsOf M m).foldl (fun (acc : Except DErr (List String)) d =>
        acc.bind (orderVisit M f d (m :: visiting))) (.ok sorted) with
    | error e => rw [hfoldr] at h; exact absurd h (by simp [Except.map])
    | ok s0 =>
      rw [hfoldr] at h
      have hs' : s' = s0 ++ [m] := by
        simp only [Except.map] at h
        injection h with h
        exact h.symm
      obtain ⟨hg0, ⟨t0, ht0, ht0v⟩, hdeps0⟩ := hfold (depsOf M m) sorted s0 hfoldr hg
      have hm0 : m ∉ s0 := by
        rw [ht0]
        intro hc
        rcases List.mem_append.mp hc with hc | hc
        · exact hs hc
        · exact ht0v m hc (List.mem_cons_self m visiting)
      subst hs'
      refine ⟨goodOrder_append M hg0 hm0 hdeps0, ⟨t0 ++ [m], ?_, ?_⟩, ?_⟩
      · rw [ht0, List.append_assoc]
      · intro x hx
        rcases List.mem_append.mp hx with hx | hx
        · exact fun hcv => ht0v x hx (List.mem_cons_of_mem _ hcv)
        · have : x = m := by simpa using hx
          subst this
          exact hv
      · exact List.mem_append_right _ (by simp)

theorem getInitialisationOrder_ok (M : List SysModule) {s : List String}
    (h : getInitialisationOrder M = .ok s) :
    GoodOrder M s ∧ ∀ n ∈ M.map (·.name), n ∈ s := by
  unfold getInitialisationOrder at h
  have hgen : ∀ (ns : List String) (s0 s1 : List String),
      ns.foldl (fun (acc : Except DErr (List String)) n => acc.bind (fun s =>
        if n ∈ s then .ok s else orderVisit M (fuelOf M) n [] s)) (.ok s0) = .ok s1 →
      GoodOrder M s0 →
      GoodOrder M s1 ∧ (∃ t, s1 = s0 ++ t) ∧ ∀ n ∈ ns, n ∈ s1 := by
    intro ns
    induction ns with
    | nil =>
      intro s0 s1 hc hg0
      simp only [List.foldl_nil] at hc
      injection hc with hc
      subst hc
      exact ⟨hg0, ⟨[], by simp⟩, by simp⟩
    | cons n ns ihns =>
      intro s0 s1 hc hg0
      rw [List.foldl_cons, ok_bind] at hc
      by_cases hn : n ∈ s0
      · rw [if_pos hn] at hc
        obtain ⟨hg1, ⟨t, ht⟩, hns1⟩ := ihns s0 s1 hc hg0
        refine ⟨hg1, ⟨t, ht⟩, ?_⟩
        intro x hx
        rcases List.mem_cons.mp hx with rfl | hx
        · rw [ht]; exact List.mem_append_left _ hn
        · exact hns1 x hx
      · rw [if_neg hn] at hc
        cases hvisit : orderVisit M (fuelOf M) n [] s0 with
        | error e =>
          rw [hvisit, foldl_bind_error
            (fun k s => if k ∈ s then Except.ok s else orderVisit M (fuelOf M) k [] s)
            e ns] at hc
          exact absurd hc (by simp)
        | ok sn =>
          rw [hvisit] at hc
          obtain ⟨hgn, ⟨t1, ht1, _⟩, hnm⟩ := orderVisit_ok M (fuelOf M) n [] s0 sn hvisit hg0
          obtain ⟨hg1, ⟨t2, ht2⟩, hns1⟩ := ihns sn s1 hc hgn
          refine ⟨hg1, ⟨t1 ++ t2, by rw [ht2, ht1, List.append_assoc]⟩, ?_⟩
          intro x hx
          rcases List.mem_cons.mp hx with rfl | hx
          · rw [ht2]; exact List.mem_append_left _ hnm
          · exact hns1 x hx
  obtain ⟨hg, _, hmem⟩ := hgen (M.map (·.name)) [] s h (goodOrder_nil M)
  exact ⟨hg, hmem⟩

/-! From a dependency-respecting order to acyclicity, via positions. -/

theorem goodOrder_step_indexOf {M : List SysModule} {s : List String}
    (hg : GoodOrder M s) {a b : String} (hstep : DepStep M a b) (ha : a ∈ s) :
    b ∈ s ∧ s.indexOf b < s.indexOf a := by
  obtain ⟨hnd, hcl, hpw⟩ := hg
  obtain ⟨hb, hne⟩ := hcl a ha b hstep
  refine ⟨hb, ?_⟩
  have hia := List.indexOf_lt_length.mpr ha
  have hib := List.indexOf_lt_length.mpr hb
  rcases lt_trichotomy (s.indexOf a) (s.indexOf b) with hlt | heq | hgt
  · exfalso
    have := List.pairwise_iff_get.mp hpw ⟨s.indexOf a, hia⟩ ⟨s.indexOf b, hib⟩ hlt
    rw [List.indexOf_get hia, List.indexOf_get hib] at this
    exact this hstep
  · exfalso
    apply hne
    have h1 := List.indexOf_get hib
    have h2 := List.indexOf_get hia
    rw [← h1, ← h2]
    congr 1
    exact Fin.ext heq.symm
  · exact hgt

theorem goodOrder_transGen_indexOf {M : List SysModule} {s : List String}
    (hg : GoodOrder M s) {a b : String}
    (h : Relation.TransGen (DepStep M) a b) (ha : a ∈ s) :
    b ∈ s ∧ s.indexOf b < s.indexOf a := by
  induction h with
  | single hstep => exact goodOrder_step_indexOf hg hstep ha
  | tail _ hstep ih =>
    obtain ⟨hb, hlt⟩ := ih
    obtain ⟨hc, hlt2⟩ := goodOrder_step_indexOf hg hstep hb
    exact ⟨hc, hlt2.trans hlt⟩

theorem transGen_src_mem {M : List SysModule} {a b : String}
    (h : Relation.TransGen (DepStep M) a b) : a ∈ modNames M := by
  cases h with
  | single hstep => exact depStep_src_mem hstep
  | tail h1 _ =>
    clear * - h1
    induction h1 with
    | single hstep => exact depStep_src_mem hstep
    | tail _ _ ih => exact ih

theorem order_ok_acyclic {M : List SysModule} {s : List String}
    (h : getInitialisationOrder M = .ok s) : ¬ HasCycle M := by
  obtain ⟨hg, hnames⟩ := getInitialisationOrder_ok M h
  rintro ⟨a, hcyc⟩
  have ha : a ∈ s := hnames a (transGen_src_mem hcyc)
  obtain ⟨_, hlt⟩ := goodOrder_transGen_indexOf hg hcyc ha
  omega

theorem acyclic_order_ok {M : List SysModule} (h : ¬ HasCycle M) :
    ∃ s, getInitialisationOrder M = .ok s := by
  cases hres : getInitialisationOrder M with
  | ok s => exact ⟨s, rfl⟩
  | error e =>
    cases e with
    | cycle => exact absurd (getInitialisationOrder_cycle_sound M hres) h
    | fuel => exact absurd hres (getInitialisationOrder_ne_fuel M)

/-! Equivalence of the two traversals: detectCircularDependencies marks
nodes visited on entry while getInitialisationOrder marks them on exit,
but the detect-visited set always equals the order-visited set united with
the current recursion stack, so both runs succeed or fail identically. -/

theorem detectVisit_eq_orderVisit (M : List SysModule) :
    ∀ f m visiting dv gv,
      (∀ x, x ∈ dv ↔ x ∈ gv ∨ x ∈ visiting) →
      (∃ e, detectVisit M f m visiting dv = .error e ∧
        orderVisit M f m visiting gv = .error e) ∨
      (∃ dv' gv', detectVisit M f m visiting dv = .ok dv' ∧
        orderVisit M f m visiting gv = .ok gv' ∧
        ∀ x, x ∈ dv' ↔ x ∈ gv' ∨ x ∈ visiting) := by
  intro f
  induction f with
  | zero =>
    intro m visiting dv gv _
    exact Or.inl ⟨.fuel, rfl, rfl⟩
  | succ f ih =>
    intro m visiting dv gv hrel
    rw [detectVisit, orderVisit]
    by_cases hv : m ∈ visiting
    · rw [if_pos hv, if_pos hv]
      exact Or.inl ⟨.cycle, rfl, rfl⟩
    rw [if_neg hv, if_neg hv]
    by_cases hm : m ∈ dv
    · have hmg : m ∈ gv := by
        rcases (hrel m).mp hm with h | h
        · exact h
        · exact absurd h hv
      rw [if_pos hm, if_pos hmg]
      exact Or.inr ⟨dv, gv, rfl, rfl, hrel⟩
    · have hmg : m ∉ gv := fun hc => hm ((hrel m).mpr (Or.inl hc))
      rw [if_neg hm, if_neg hmg]
      have hrel' : ∀ x, x ∈ m :: dv ↔ x ∈ gv ∨ x ∈ m :: visiting := by
        intro x
        simp only [List.mem_cons, hrel x]
        tauto
      have hfold : ∀ (ds : List String) (dv0 gv0 : List String),
          (∀ x, x ∈ dv0 ↔ x ∈ gv0 ∨ x ∈ m :: visiting) →
          (∃ e, ds.foldl (fun (acc : Except DErr (List String)) d =>
              acc.bind (detectVisit M f d (m :: visiting))) (.ok dv0) = .error e ∧
            ds.foldl (fun (acc : Except DErr (List String)) d =>
              acc.bind (orderVisit M f d (m :: visiting))) (.ok gv0) = .error e) ∨
          (∃ dv1 gv1, ds.foldl (fun (acc : Except DErr (List String)) d =>
              acc.bind (detectVisit M f d (m :: visiting))) (.ok dv0) = .ok dv1 ∧
            ds.foldl (fun (acc : Except DErr (List String)) d =>
              acc.bind (orderVisit M f d (m :: visiting))) (.ok gv0) = .ok gv1 ∧
            ∀ x, x ∈ dv1 ↔ x ∈ gv1 ∨ x ∈ m :: visiting) := by
        intro ds
        induction ds with
        | nil =>
          intro dv0 gv0 hrel0
          exact Or.inr ⟨dv0, gv0, rfl, rfl, hrel0⟩
        | cons d ds ihds =>
          intro dv0 gv0 hrel0
          rw [List.foldl_cons, ok_bind, List.foldl_cons, ok_bind]
          rcases ih d (m :: visiting) dv0 gv0 hrel0 with
            ⟨e, hde, hge⟩ | ⟨dv1, gv1, hdo, hgo, hrel1⟩
          · rw [hde, hge, foldl_bind_error _ _ ds, foldl_bind_error _ _ ds]
            exact Or.inl ⟨e, rfl, rfl⟩
          · rw [hdo, hgo]
            exact ihds dv1 gv1 hrel1
      rcases hfold (depsOf M m) (m :: dv) gv hrel' with
        ⟨e, hde, hge⟩ | ⟨dv1, gv1, hdo, hgo, hrel1⟩
      · rw [hde, hge]
        exact Or.inl ⟨e, rfl, by simp [Except.map]⟩
      · rw [hdo, hgo]
        refine Or.inr ⟨dv1, gv1 ++ [m], rfl, by simp [Except.map], ?_⟩
        intro x
        rw [hrel1 x]
        simp only [List.mem_append, List.mem_cons, List.mem_singleton]
        tauto

theorem detect_eq_order (M : List SysModule) :
    (∃ e, detectCircularDependencies M = .error e ∧
      getInitialisationOrder M = .error e) ∨
    (∃ dv gv, detectCircularDependencies M = .ok dv ∧
      getInitialisationOrder M = .ok gv ∧ ∀ x, x ∈ dv ↔ x ∈ gv) := by
  unfold detectCircularDependencies getInitialisationOrder
  have hgen : ∀ (ns : List String) (dv0 gv0 : List String),
      (∀ x, x ∈ dv0 ↔ x ∈ gv0) →
      (∃ e, ns.foldl (fun (acc : Except DErr (List String)) n => acc.bind (fun v =>
          if n ∈ v then .ok v else detectVisit M (fuelOf M) n [] v)) (.ok dv0) =
          .error e ∧
        ns.foldl (fun (acc : Except DErr (List String)) n => acc.bind (fun s =>
          if n ∈ s then .ok s else orderVisit M (fuelOf M) n [] s)) (.ok gv0) =
          .error e) ∨
      (∃ dv gv, ns.foldl (fun (acc : Except DErr (List String)) n => acc.bind (fun v =>
          if n ∈ v then .ok v else detectVisit M (fuelOf M) n [] v)) (.ok dv0) =
          .ok dv ∧
        ns.foldl (fun (acc : Except DErr (List String)) n => acc.bind (fun s =>
          if n ∈ s then .ok s else orderVisit M (fuelOf M) n [] s)) (.ok gv0) =
          .ok gv ∧ ∀ x, x ∈ dv ↔ x ∈ gv) := by
    intro ns
    induction ns with
    | nil =>
      intro dv0 gv0 hrel0
      exact Or.inr ⟨dv0, gv0, rfl, rfl, hrel0⟩
    | cons n ns ihns =>
      intro dv0 gv0 hrel0
      rw [List.foldl_cons, ok_bind, List.foldl_cons, ok_bind]
      by_cases hn : n ∈ dv0
      · have hng : n ∈ gv0 := (hrel0 n).mp hn
        rw [if_pos hn, if_pos hng]
        exact ihns dv0 gv0 hrel0
      · have hng : n ∉ gv0 := fun hc => hn ((hrel0 n).mpr hc)
        rw [if_neg hn, if_neg hng]
        have hrel0' : ∀ x, x ∈ dv0 ↔ x ∈ gv0 ∨ x ∈ ([] : List String) := by
          intro x; simp [hrel0 x]
        rcases detectVisit_eq_orderVisit M (fuelOf M) n [] dv0 gv0 hrel0' with
          ⟨e, hde, hge⟩ | ⟨dv1, gv1, hdo, hgo, hrel1⟩
        · rw [hde, hge,
            foldl_bind_error
              (fun k v => if k ∈ v then Except.ok v else detectVisit M (fuelOf M) k [] v)
              e ns,
            foldl_bind_error
              (fun k s => if k ∈ s then Except.ok s else orderVisit M (fuelOf M) k [] s)
              e ns]
          exact Or.inl ⟨e, rfl, rfl⟩
        · rw [hdo, hgo]
          refine ihns dv1 gv1 ?_
          intro x
          simpa using hrel1 x
  exact hgen (M.map (·.name)) [] [] (fun x => Iff.rfl)

theorem cycle_detect_error {M : List SysModule} (h : HasCycle M) :
    detectCircularDependencies M = .error .cycle := by
  rcases detect_eq_order M with ⟨e, hde, hge⟩ | ⟨dv, gv, hdo, hgo, _⟩
  · cases e with
    | cycle => exact hde
    | fuel => exact absurd hge (getInitialisationOrder_ne_fuel M)
  · exact absurd h (order_ok_acyclic hgo)

theorem acyclic_detect_ok {M : List SysModule} (h : ¬ HasCycle M) :
    ∃ v, detectCircularDependencies M = .ok v := by
  rcases detect_eq_order M with ⟨e, hde, hge⟩ | ⟨dv, gv, hdo, _, _⟩
  · cases e with
    | cycle => exact absurd (getInitialisationOrder_cycle_sound M hge) h
    | fuel => exact absurd hge (getInitialisationOrder_ne_fuel M)
  · exact ⟨dv, hdo⟩

/-- Whether initialise's loop treats the name as an enabled registered
module (module?.isEnabled()). -/
def enabledName (M : List SysModule) (n : String) : Bool :=
  match findModule M n with
  | some m => m.enabled
  | none => false

theorem runInits_all_ok {M : List SysModule}
    (hok : ∀ m ∈ M, m.enabled → m.initOk) :
    ∀ (order acc : List String),
      runInits M order acc =
        (acc.reverse ++ order.filter (enabledName M), .ok ()) := by
  intro order
  induction order with
  | nil => intro acc; simp [runInits]
  | cons n ns ih =>
    intro acc
    rw [runInits]
    cases hf : findModule M n with
    | none =>
      have he : enabledName M n = false := by unfold enabledName; rw [hf]
      rw [ih acc, List.filter_cons_of_neg (by simp [he])]
    | some m =>
      obtain ⟨hm, _⟩ := findModule_mem hf
      have he : enabledName M n = m.enabled := by unfold enabledName; rw [hf]
      dsimp only
      by_cases hen : m.enabled
      · rw [if_pos hen, if_pos (hok m hm hen)]
        rw [ih (n :: acc), List.filter_cons_of_pos (by simp [he, hen])]
        simp
      · rw [if_neg hen]
        rw [ih acc, List.filter_cons_of_neg (by simp [he, hen])]

theorem findMissing_none {M : List SysModule}
    (hdeps : ∀ m ∈ M, ∀ d ∈ m.dependencies, d ∈ modNames M) :
    findMissing M = none := by
  unfold findMissing
  rw [List.findSome?_eq_none_iff]
  intro m hm
  rw [Option.map_eq_none']
  rw [List.find?_eq_none]
  intro d hd
  have : d ∈ modNames M := hdeps m hm d (mem_jsSet.mp hd)
  simp only [Bool.not_eq_true', Bool.not_eq_false]
  exact List.elem_eq_true_of_mem (by simpa [modNames] using this)

theorem filter_indexOf_lt (p : String → Bool) :
    ∀ (l : List String), l.Nodup → ∀ x d, x ∈ l.filter p → d ∈ l.filter p →
      l.indexOf d < l.indexOf x →
      (l.filter p).indexOf d < (l.filter p).indexOf x := by
  intro l
  induction l with
  | nil => intro _ x d hx; simp at hx
  | cons a l ih =>
    intro hnd x d hx hd hlt
    have hna : a ∉ l := (List.nodup_cons.mp hnd).1
    have hndl : l.Nodup := (List.nodup_cons.mp hnd).2
    by_cases hpa : p a
    · rw [List.filter_cons_of_pos hpa] at hx hd ⊢
      by_cases hda : d = a
      · subst hda
        have hxa : x ≠ d := by
          intro h
          subst h
          omega
        rw [List.indexOf_cons_self]
        rw [List.indexOf_cons_ne _ (fun h => hxa h.symm)]
        omega
      · have hxa : x ≠ a := by
          intro h
          subst h
          rw [List.indexOf_cons_self] at hlt
          omega
        have hdl : d ∈ l.filter p := by
          rcases List.mem_cons.mp hd with h | h
          · exact absurd h hda
          · exact h
        have hxl : x ∈ l.filter p := by
          rcases List.mem_cons.mp hx with h | h
          · exact absurd h hxa
          · exact h
        rw [List.indexOf_cons_ne _ (fun h => hda h.symm),
          List.indexOf_cons_ne _ (fun h => hxa h.symm)] at hlt
        rw [List.indexOf_cons_ne _ (fun h => hda h.symm),
          List.indexOf_cons_ne _ (fun h => hxa h.symm)]
        have := ih hndl x d hxl hdl (by omega)
        omega
    · rw [List.filter_cons_of_neg hpa] at hx hd ⊢
      have hda : d ≠ a := by
        intro h
        subst h
        exact hna (List.mem_of_mem_filter hd)
      have hxa : x ≠ a := by
        intro h
        subst h
        exact hna (List.mem_of_mem_filter hx)
      rw [List.indexOf_cons_ne _ (fun h => hda h.symm),
        List.indexOf_cons_ne _ (fun h => hxa h.symm)] at hlt
      exact ih hndl x d hx hd (by omega)

theorem enabledName_true_of_mem {M : List SysModule} {d : String}
    (hd : d ∈ modNames M) (hall : ∀ m ∈ M, m.enabled) :
    enabledName M d = true := by
  unfold enabledName
  cases hf : findModule M d with
  | none =>
    exfalso
    have := findModule_isSome_of_mem hd
    rw [hf] at this
    simp at this
  | some m => exact hall m (findModule_mem hf).1

theorem initialise_success_eq {mm : MM}
    (hflag : mm.isInitialised = false)
    (hdeps : ∀ m ∈ mm.modules, ∀ d ∈ m.dependencies, d ∈ modNames mm.modules)
    (hacyc : ¬ HasCycle mm.modules)
    (hok : ∀ m ∈ mm.modules, m.enabled → m.initOk) :
    ∃ order, getInitialisationOrder mm.modules = .ok order ∧
      initialise mm = ⟨order.filter (enabledName mm.modules), .ok (),
        { mm with isInitialised := true }⟩ := by
  obtain ⟨order, horder⟩ := acyclic_order_ok hacyc
  refine ⟨order, horder, ?_⟩
  obtain ⟨v, hv⟩ := acyclic_detect_ok hacyc
  unfold initialise
  rw [hflag]
  simp only [Bool.false_eq_true, if_false]
  unfold validateDependencies
  rw [findMissing_none hdeps, hv, horder]
  dsimp only
  rw [runInits_all_ok hok order []]
  simp

/-- C1: for an acyclic registered module set with all declared dependencies
registered, getInitialisationOrder succeeds, lists every registered module,
and places every name after all of its dependencies; initialise() then
invokes exactly the enabled modules in that order (assuming their
initialisers succeed), so every enabled dependency's initialiser completes
before its dependent's begins, and when every module is enabled this holds
for all declared dependencies.  Determinism is inherent: the order is a
pure function of the registration-ordered module list, traversed in
registration order. -/
theorem C1_topological_initialisation (mm : MM)
    (hflag : mm.isInitialised = false)
    (hdeps : ∀ m ∈ mm.modules, ∀ d ∈ m.dependencies, d ∈ modNames mm.modules)
    (hacyc : ¬ HasCycle mm.modules)
    (hok : ∀ m ∈ mm.modules, m.enabled → m.initOk) :
    ∃ order,
      getInitialisationOrder mm.modules = .ok order ∧
      (∀ m ∈ mm.modules, m.name ∈ order) ∧
      (∀ x ∈ order, ∀ d ∈ depsOf mm.modules x,
        d ∈ order ∧ order.indexOf d < order.indexOf x) ∧
      (initialise mm).trace = order.filter (enabledName mm.modules) ∧
      (initialise mm).outcome = .ok () ∧
      (initialise mm).state.isInitialised = true ∧
      (∀ x ∈ (initialise mm).trace, ∀ d ∈ depsOf mm.modules x,
        enabledName mm.modules d = true →
        d ∈ (initialise mm).trace ∧
        (initialise mm).trace.indexOf d < (initialise mm).trace.indexOf x) ∧
      ((∀ m ∈ mm.modules, m.enabled) →
        ∀ x ∈ (initialise mm).trace, ∀ d ∈ depsOf mm.modules x,
        d ∈ (initialise mm).trace ∧
        (initialise mm).trace.indexOf d < (initialise mm).trace.indexOf x) := by
  obtain ⟨order, horder, hinit⟩ := initialise_success_eq hflag hdeps hacyc hok
  obtain ⟨hg, hnames⟩ := getInitialisationOrder_ok mm.modules horder
  have hstep : ∀ x ∈ order, ∀ d ∈ depsOf mm.modules x,
      d ∈ order ∧ order.indexOf d < order.indexOf x := by
    intro x hx d hd
    exact goodOrder_step_indexOf hg hd hx
  have htrace : (initialise mm).trace = order.filter (enabledName mm.modules) := by
    rw [hinit]
  have htr : ∀ x ∈ (initialise mm).trace, ∀ d ∈ depsOf mm.modules x,
      enabledName mm.modules d = true →
      d ∈ (initialise mm).trace ∧
      (initialise mm).trace.indexOf d < (initialise mm).trace.indexOf x := by
    intro x hx d hd hen
    rw [htrace] at hx ⊢
    have hxo : x ∈ order := List.mem_of_mem_filter hx
    obtain ⟨hdo, hlt⟩ := hstep x hxo d hd
    have hdf : d ∈ order.filter (enabledName mm.modules) :=
      List.mem_filter.mpr ⟨hdo, hen⟩
    exact ⟨hdf, filter_indexOf_lt (enabledName mm.modules) order hg.1 x d hx hdf hlt⟩
  refine ⟨order, horder, ?_, hstep, htrace, by rw [hinit], by rw [hinit], htr, ?_⟩
  · intro m hm
    exact hnames m.name (List.mem_map_of_mem _ hm)
  · intro hall x hx d hd
    have hen : enabledName mm.modules d = true := by
      have hxo : x ∈ order := by
        rw [htrace] at hx
        exact List.mem_of_mem_filter hx
      have hdm : d ∈ modNames mm.modules := by
        unfold depsOf at hd
        cases hf : findModule mm.modules x with
        | none => rw [hf] at hd; simp at hd
        | some m0 =>
          rw [hf] at hd
          exact hdeps m0 (findModule_mem hf).1 d (mem_jsSet.mp hd)
      exact enabledName_true_of_mem hdm hall
    exact htr x hx d hd hen

/-- Concrete registration for the C1 witness: the spec's end-to-end chain
db, auth (depends on db), api (depends on auth and db). -/
def mmC1 : MM :=
  ⟨[⟨"db", "1", [], true, true⟩, ⟨"auth", "1", ["db"], true, true⟩,
    ⟨"api", "1", ["auth", "db"], true, true⟩], false⟩

theorem C1_witness :
    mmC1.isInitialised = false ∧
    ∃ order,
      getInitialisationOrder mmC1.modules = .ok order ∧
      (∀ m ∈ mmC1.modules, m.name ∈ order) ∧
      (∀ x ∈ order, ∀ d ∈ depsOf mmC1.modules x,
        d ∈ order ∧ order.indexOf d < order.indexOf x) ∧
      (initialise mmC1).trace = order.filter (enabledName mmC1.modules) ∧
      (initialise mmC1).outcome = .ok () ∧
      (initialise mmC1).state.isInitialised = true ∧
      (∀ x ∈ (initialise mmC1).trace, ∀ d ∈ depsOf mmC1.modules x,
        enabledName mmC1.modules d = true →
        d ∈ (initialise mmC1).trace ∧
        (initialise mmC1).trace.indexOf d < (initialise mmC1).trace.indexOf x) ∧
      ((∀ m ∈ mmC1.modules, m.enabled) →
        ∀ x ∈ (initialise mmC1).trace, ∀ d ∈ depsOf mmC1.modules x,
        d ∈ (initialise mmC1).trace ∧
        (initialise mmC1).trace.indexOf d <
          (initialise mmC1).trace.indexOf x) :=
  ⟨rfl,
    C1_topological_initialisation mmC1 rfl (by decide)
      (order_ok_acyclic (show getInitialisationOrder mmC1.modules =
        .ok ["db", "auth", "api"] by decide))
      (by decide)⟩

/-- C2: when the registered dependency graph has a cycle (all declared
dependencies registered), initialise() raises the circular-dependency
error during validation, before any module's initialiser is invoked, and
the manager state (in particular the isInitialised flag) is unchanged. -/
theorem C2_circular_dependency (mm : MM)
    (hflag : mm.isInitialised = false)
    (hdeps : ∀ m ∈ mm.modules, ∀ d ∈ m.dependencies, d ∈ modNames mm.modules)
    (hcyc : HasCycle mm.modules) :
    (initialise mm).outcome = .error .circular ∧
    (initialise mm).trace = [] ∧
    (initialise mm).state = mm ∧
    (initialise mm).state.isInitialised = false := by
  have hdet : detectCircularDependencies mm.modules = .error .cycle :=
    cycle_detect_error hcyc
  have : initialise mm = ⟨[], .error .circular, mm⟩ := by
    unfold initialise
    rw [hflag]
    simp only [Bool.false_eq_true, if_false]
    unfold validateDependencies
    rw [findMissing_none hdeps, hdet]
  rw [this]
  exact ⟨rfl, rfl, rfl, hflag⟩

/-- Concrete registration for the C2 witness: the spec's example of mutually
dependent modules a and b. -/
def mmC2 : MM :=
  ⟨[⟨"a", "1", ["b"], true, true⟩, ⟨"b", "1", ["a"], true, true⟩], false⟩

theorem C2_witness :
    mmC2.isInitialised = false ∧
    (initialise mmC2).outcome = .error .circular ∧
    (initialise mmC2).trace = [] ∧
    (initialise mmC2).state = mmC2 ∧
    (initialise mmC2).state.isInitialised = false :=
  ⟨rfl,
    C2_circular_dependency mmC2 rfl (by decide)
      ⟨"a", Relation.TransGen.head
        (show DepStep mmC2.modules "a" "b" by
          unfold DepStep; decide)
        (Relation.TransGen.single
          (show DepStep mmC2.modules "b" "a" by
            unfold DepStep; decide))⟩⟩

theorem findModule_name_of_nodup {M : List SysModule}
    (hnd : (modNames M).Nodup) : ∀ {m : SysModule}, m ∈ M →
    findModule M m.name = some m := by
  induction M with
  | nil => intro m hm; simp at hm
  | cons a M ih =>
    intro m hm
    rcases List.mem_cons.mp hm with rfl | hm
    · unfold findModule
      simp [List.find?_cons_of_pos]
    · have hne : a.name ≠ m.name := by
        intro hc
        have : m.name ∈ modNames M := List.mem_map_of_mem _ hm
        rw [← hc] at this
        exact (List.nodup_cons.mp (by simpa [modNames] using hnd)).1 this
      unfold findModule
      rw [List.find?_cons_of_neg _ (by simp [hne])]
      exact ih (by simpa [modNames] using (List.nodup_cons.mp
        (by simpa [modNames] using hnd)).2) hm

/-- C5 counterexample input: enabled module a and disabled module b. -/
def mmC5 : MM :=
  ⟨[⟨"a", "1", [], true, true⟩, ⟨"b", "1", [], false, true⟩], false⟩

/-- C5 is false as stated: after initialising mmC5 (which correctly skips
the disabled module b), shutdown() invokes b's shutdown hook - the
shutdown loop only checks registration, not isEnabled(). -/
theorem C5_counterexample :
    (∃ m ∈ mmC5.modules, m.enabled = false ∧ m.name = "b") ∧
    (initialise mmC5).trace = ["a"] ∧
    (initialise mmC5).state.isInitialised = true ∧
    "b" ∈ (shutdown (initialise mmC5).state).1 := by decide

/-- C5 amended: a disabled registered module is never initialised, and
enabled modules are still initialised; but shutdown() invokes the shutdown
hook of every registered module, disabled ones included. -/
theorem C5_disabled_skipped_on_init_only (mm : MM)
    (hflag : mm.isInitialised = false)
    (hnd : (modNames mm.modules).Nodup)
    (hdeps : ∀ m ∈ mm.modules, ∀ d ∈ m.dependencies, d ∈ modNames mm.modules)
    (hacyc : ¬ HasCycle mm.modules)
    (hok : ∀ m ∈ mm.modules, m.enabled → m.initOk) :
    (∀ m ∈ mm.modules, m.enabled = false → m.name ∉ (initialise mm).trace) ∧
    (∀ m ∈ mm.modules, m.enabled = true → m.name ∈ (initialise mm).trace) ∧
    (∀ m ∈ mm.modules, m.name ∈ (shutdown (initialise mm).state).1) := by
  obtain ⟨order, horder, hinit⟩ := initialise_success_eq hflag hdeps hacyc hok
  obtain ⟨hg, hnames⟩ := getInitialisationOrder_ok mm.modules horder
  have htrace : (initialise mm).trace = order.filter (enabledName mm.modules) := by
    rw [hinit]
  refine ⟨?_, ?_, ?_⟩
  · intro m hm hdis
    rw [htrace]
    intro hc
    have := List.of_mem_filter hc
    rw [enabledName, findModule_name_of_nodup hnd hm] at this
    simp only [hdis] at this
    exact absurd this (by simp)
  · intro m hm hen
    rw [htrace]
    refine List.mem_filter.mpr ⟨hnames m.name (List.mem_map_of_mem _ hm), ?_⟩
    rw [enabledName, findModule_name_of_nodup hnd hm]
    exact hen
  · intro m hm
    have hstate : (initialise mm).state = { mm with isInitialised := true } := by
      rw [hinit]
    rw [hstate]
    unfold shutdown
    simp only [if_pos rfl]
    rw [show ({ mm with isInitialised := true } : MM).modules = mm.modules from rfl,
      horder]
    refine List.mem_filter.mpr ⟨?_, ?_⟩
    · exact List.mem_reverse.mpr (hnames m.name (List.mem_map_of_mem _ hm))
    · have := findModule_isSome_of_mem (List.mem_map_of_mem (·.name) hm)
      simpa using this

theorem C5_witness :
    mmC5.isInitialised = false ∧
    ((∀ m ∈ mmC5.modules, m.enabled = false → m.name ∉ (initialise mmC5).trace) ∧
    (∀ m ∈ mmC5.modules, m.enabled = true → m.name ∈ (initialise mmC5).trace) ∧
    (∀ m ∈ mmC5.modules, m.name ∈ (shutdown (initialise mmC5).state).1)) :=
  ⟨rfl,
    C5_disabled_skipped_on_init_only mmC5 rfl (by decide) (by decide)
      (order_ok_acyclic (show getInitialisationOrder mmC5.modules =
        .ok ["a", "b"] by decide))
      (by decide)⟩

theorem validateDependencies_no_initFail {M : List SysModule} {f : String} :
    validateDependencies M ≠ .error (.initFail f) := by
  unfold validateDependencies
  cases findMissing M with
  | some p => cases p; simp
  | none =>
    cases detectCircularDependencies M with
    | error e => cases e <;> simp
    | ok v => simp

theorem runInits_initFail_mem {M : List SysModule} {f : String} :
    ∀ (order acc t : List String),
      runInits M order acc = (t, .error (.initFail f)) →
      f ∈ t ∧ t ≠ [] := by
  intro order
  induction order with
  | nil => intro acc t h; rw [runInits] at h; simp at h
  | cons n ns ih =>
    intro acc t h
    rw [runInits] at h
    cases hf : findModule M n with
    | none => rw [hf] at h; exact ih acc t h
    | some m =>
      rw [hf] at h
      dsimp only at h
      by_cases hen : m.enabled
      · rw [if_pos hen] at h
        by_cases hok : m.initOk
        · rw [if_pos hok] at h
          exact ih (n :: acc) t h
        · rw [if_neg hok] at h
          injection h with h1 h2
          injection h2 with h2
          injection h2 with h2
          subst h1 h2
          refine ⟨?_, by simp⟩
          simp
      · rw [if_neg hen] at h
        exact ih acc t h

/-- C9: when an enabled module's initialiser rejects during initialise(),
the isInitialised flag stays false and the manager state is unchanged, so
a second initialise() call is not the warn-and-return no-op: it runs the
identical validation and initialisation sequence again, re-invoking the
very same initialisers (including those that already succeeded before the
failing one). -/
theorem C9_failed_initialise_not_idempotent (mm : MM) (f : String)
    (hflag : mm.isInitialised = false)
    (hfail : (initialise mm).outcome = .error (.initFail f)) :
    (initialise mm).state = mm ∧
    (initialise mm).state.isInitialised = false ∧
    initialise ((initialise mm).state) = initialise mm ∧
    (initialise ((initialise mm).state)).trace = (initialise mm).trace ∧
    f ∈ (initialise mm).trace ∧
    (initialise mm).trace ≠ [] := by
  have hstate : (initialise mm).state = mm ∧ f ∈ (initialise mm).trace ∧
      (initialise mm).trace ≠ [] := by
    unfold initialise at hfail ⊢
    rw [hflag] at hfail ⊢
    simp only [Bool.false_eq_true, if_false] at hfail ⊢
    cases hval : validateDependencies mm.modules with
    | error e =>
      rw [hval] at hfail
      dsimp only at hfail
      injection hfail with hfail
      exact absurd (hfail ▸ hval) validateDependencies_no_initFail
    | ok u =>
      rw [hval] at hfail
      dsimp only at hfail ⊢
      cases horder : getInitialisationOrder mm.modules with
      | error e =>
        rw [horder] at hfail
        cases e with
        | cycle => dsimp only at hfail; injection hfail with hfail; simp at hfail
        | fuel => dsimp only at hfail; injection hfail with hfail; simp at hfail
      | ok order =>
        rw [horder] at hfail
        dsimp only at hfail ⊢
        cases hrun : runInits mm.modules order [] with
        | mk t res =>
          rw [hrun] at hfail
          cases res with
          | ok u2 => dsimp only at hfail; simp at hfail
          | error e =>
            dsimp only at hfail ⊢
            injection hfail with hfail
            subst hfail
            obtain ⟨hmem, hne⟩ := runInits_initFail_mem order [] t hrun
            exact ⟨rfl, hmem, hne⟩
  obtain ⟨h1, h2, h3⟩ := hstate
  refine ⟨h1, by rw [h1]; exact hflag, by rw [h1], by rw [h1], h2, h3⟩

/-- C9 witness input: module a succeeds, module b's initialiser rejects. -/
def mmC9 : MM :=
  ⟨[⟨"a", "1", [], true, true⟩, ⟨"b", "1", [], true, false⟩], false⟩

theorem C9_witness :
    mmC9.isInitialised = false ∧
    (initialise mmC9).outcome = .error (.initFail "b") ∧
    ((initialise mmC9).state = mmC9 ∧
    (initialise mmC9).state.isInitialised = false ∧
    initialise ((initialise mmC9).state) = initialise mmC9 ∧
    (initialise ((initialise mmC9).state)).trace = (initialise mmC9).trace ∧
    "b" ∈ (initialise mmC9).trace ∧
    (initialise mmC9).trace ≠ []) :=
  ⟨rfl, by decide,
    C9_failed_initialise_not_idempotent mmC9 "b" rfl (by decide)⟩

/-! MiddlewareManager (middleware-manager.ts, bundled in config-provider.ts):
priority-ordered chain-of-responsibility over a request context.  The
middleware contract is embedded abstractly: each middleware either calls
its continuation next() exactly once (callsNext = true) or returns without
calling it (callsNext = false). -/

structure Middleware where
  name : String
  priority : Int
  callsNext : Bool
deriving DecidableEq

/-- Stable insertion of a middleware into a descending-priority list:
placed after every element of priority greater than or equal to its own. -/
def mwInsert (m : Middleware) : List Middleware → List Middleware
  | [] => [m]
  | b :: l => if b.priority < m.priority then m :: b :: l else b :: mwInsert m l

/-- The stable sort this.middlewares.sort((a, b) => b.priority - a.priority):
Array.prototype.sort is specified stable, so the result is the unique
descending-priority permutation preserving the relative order of equal
priorities; sortDesc computes it by left-to-right stable insertion. -/
def sortDesc (l : List Middleware) : List Middleware :=
  l.foldl (fun acc m => mwInsert m acc) []

/-- MiddlewareManager.register: reject duplicate names, then push and
re-sort by priority descending. -/
def mwRegister (l : List Middleware) (m : Middleware) :
    Except String (List Middleware) :=
  if l.any (fun x => x.name == m.name) then
    .error ("Middleware " ++ m.name ++ " is already registered")
  else .ok (sortDesc (l ++ [m]))

/-- Register a list of middlewares in order on an initially empty manager. -/
def mwRegisterAll (ms : List Middleware) : Except String (List Middleware) :=
  ms.foldl (fun acc m => acc.bind (fun l => mwRegister l m)) (.ok [])

/-- MiddlewareManager.execute: run the middlewares in list order through the
next() continuation; a middleware that does not call next() stops the
chain.  Returns the names executed in order, and whether control ran
through the whole chain (only then does the caller-injected terminal
step - route dispatch in the HTTP server - happen). -/
def executeTrace : List Middleware → List String × Bool
  | [] => ([], true)
  | m :: rest =>
    if m.callsNext then
      ((executeTrace rest).1.cons m.name, (executeTrace rest).2)
    else ([m.name], false)

theorem mwInsert_perm (m : Middleware) :
    ∀ l : List Middleware, (mwInsert m l).Perm (m :: l) := by
  intro l
  induction l with
  | nil => rfl
  | cons b l ih =>
    rw [mwInsert]
    by_cases hb : b.priority < m.priority
    · rw [if_pos hb]
    · rw [if_neg hb]
      exact (ih.cons b).trans (List.Perm.swap m b l)

/-- Descending-priority sortedness. -/
def MwSorted (l : List Middleware) : Prop :=
  l.Pairwise (fun a b => b.priority ≤ a.priority)

theorem mwInsert_sorted {m : Middleware} {l : List Middleware}
    (h : MwSorted l) : MwSorted (mwInsert m l) := by
  induction l with
  | nil => exact List.pairwise_singleton _ _
  | cons b l ih =>
    rw [mwInsert]
    obtain ⟨hb, hl⟩ := List.pairwise_cons.mp h
    by_cases hbm : b.priority < m.priority
    · rw [if_pos hbm]
      refine List.pairwise_cons.mpr ⟨?_, h⟩
      intro x hx
      rcases List.mem_cons.mp hx with rfl | hx
      · omega
      · have := hb x hx
        omega
    · rw [if_neg hbm]
      refine List.pairwise_cons.mpr ⟨?_, ih hl⟩
      intro x hx
      have hx' := (mwInsert_perm m l).mem_iff.mp hx
      rcases List.mem_cons.mp hx' with rfl | hx'
      · omega
      · exact hb x hx'

theorem mwInsert_filter_eq {m : Middleware} {l : List Middleware}
    (hs : MwSorted l) (q : Int) :
    (mwInsert m l).filter (fun x => x.priority == q) =
      l.filter (fun x => x.priority == q) ++
        (if m.priority = q then [m] else []) := by
  induction l with
  | nil =>
    by_cases hq : m.priority = q
    · simp [mwInsert, hq]
    · simp [mwInsert, hq]
  | cons b l ih =>
    obtain ⟨hb, hl⟩ := List.pairwise_cons.mp hs
    rw [mwInsert]
    by_cases hbm : b.priority < m.priority
    · rw [if_pos hbm]
      by_cases hq : m.priority = q
      · rw [List.filter_cons_of_pos (by simp [hq])]
        have hrest : (b :: l).filter (fun x => x.priority == q) = [] := by
          rw [List.filter_eq_nil_iff]
          intro x hx
          rcases List.mem_cons.mp hx with rfl | hx
          · simp only [beq_iff_eq]; omega
          · have := hb x hx
            simp only [beq_iff_eq]; omega
        rw [hrest]
        simp [hq]
      · rw [List.filter_cons_of_neg (by simp [hq]), if_neg hq, List.append_nil]
    · rw [if_neg hbm]
      by_cases hbq : b.priority = q
      · rw [List.filter_cons_of_pos (by simp [hbq]),
          List.filter_cons_of_pos (by simp [hbq]), ih hl]
        simp
      · rw [List.filter_cons_of_neg (by simp [hbq]),
          List.filter_cons_of_neg (by simp [hbq]), ih hl]

theorem foldl_bind_error_poly {α β ε : Type} (g : α → β → Except ε β) (e : ε) :
    ∀ ds : List α,
      ds.foldl (fun (acc : Except ε β) d => acc.bind (g d)) (.error e) = .error e := by
  intro ds
  induction ds with
  | nil => rfl
  | cons d ds ih => simpa [Except.bind] using ih

theorem mwInsert_of_ge {m : Middleware} :
    ∀ {acc : List Middleware}, (∀ b ∈ acc, ¬ b.priority < m.priority) →
      mwInsert m acc = acc ++ [m] := by
  intro acc
  induction acc with
  | nil => intro _; rfl
  | cons b l ih =>
    intro h
    rw [mwInsert, if_neg (h b (List.mem_cons_self b l)), ih]
    · rfl
    · intro x hx
      exact h x (List.mem_cons_of_mem _ hx)

theorem foldl_insert_of_sorted :
    ∀ (l acc : List Middleware), MwSorted (acc ++ l) →
      l.foldl (fun a m => mwInsert m a) acc = acc ++ l := by
  intro l
  induction l with
  | nil => intro acc _; simp
  | cons m l ih =>
    intro acc hs
    rw [List.foldl_cons]
    have hge : ∀ b ∈ acc, ¬ b.priority < m.priority := by
      intro b hb
      have := (List.pairwise_append.mp hs).2.2 b hb m (List.mem_cons_self m l)
      omega
    rw [mwInsert_of_ge hge]
    have : MwSorted ((acc ++ [m]) ++ l) := by
      rw [List.append_assoc]
      simpa using hs
    rw [ih (acc ++ [m]) this, List.append_assoc]
    rfl

theorem sortDesc_of_sorted {l : List Middleware} (h : MwSorted l) :
    sortDesc l = l := by
  unfold sortDesc
  simpa using foldl_insert_of_sorted l [] (by simpa using h)

theorem sortDesc_append_of_sorted {l : List Middleware} {m : Middleware}
    (h : MwSorted l) : sortDesc (l ++ [m]) = mwInsert m l := by
  unfold sortDesc
  rw [List.foldl_append]
  have : l.foldl (fun a x => mwInsert x a) [] = l := by
    simpa using foldl_insert_of_sorted l [] (by simpa using h)
  rw [this]
  rfl

theorem mwRegisterAll_ok {ms l : List Middleware}
    (h : mwRegisterAll ms = .ok l) :
    MwSorted l ∧
    ∀ q : Int, l.filter (fun x => x.priority == q) =
      ms.filter (fun x => x.priority == q) := by
  unfold mwRegisterAll at h
  have hgen : ∀ (rest : List Middleware) (cur : List Middleware),
      MwSorted cur →
      rest.foldl (fun (acc : Except String (List Middleware)) m =>
        acc.bind (fun l0 => mwRegister l0 m)) (.ok cur) = .ok l →
      MwSorted l ∧ ∀ q : Int, l.filter (fun x => x.priority == q) =
        cur.filter (fun x => x.priority == q) ++
          rest.filter (fun x => x.priority == q) := by
    intro rest
    induction rest with
    | nil =>
      intro cur hs hc
      simp only [List.foldl_nil] at hc
      injection hc with hc
      subst hc
      exact ⟨hs, fun q => by simp⟩
    | cons m rest ih =>
      intro cur hs hc
      rw [List.foldl_cons] at hc
      rw [show ((Except.ok cur : Except String (List Middleware)).bind
        (fun l0 => mwRegister l0 m)) = mwRegister cur m from rfl] at hc
      unfold mwRegister at hc
      by_cases hdup : cur.any (fun x => x.name == m.name)
      · rw [if_pos hdup] at hc
        rw [foldl_bind_error_poly _ _ rest] at hc
        exact absurd hc (by simp)
      · rw [if_neg hdup, sortDesc_append_of_sorted hs] at hc
        obtain ⟨hs1, hfil⟩ := ih (mwInsert m cur) (mwInsert_sorted hs) hc
        refine ⟨hs1, ?_⟩
        intro q
        rw [hfil q, mwInsert_filter_eq hs q]
        by_cases hq : m.priority = q
        · rw [if_pos hq, List.filter_cons_of_pos (by simp [hq]), List.append_assoc]
          rfl
        · rw [if_neg hq, List.filter_cons_of_neg (by simp [hq]), List.append_nil]
  have := hgen ms [] (List.Pairwise.nil) h
  simpa using this

theorem executeTrace_all_next :
    ∀ l : List Middleware, (∀ m ∈ l, m.callsNext) →
      executeTrace l = (l.map (·.name), true) := by
  intro l
  induction l with
  | nil => intro _; rfl
  | cons m l ih =>
    intro h
    rw [executeTrace, if_pos (h m (List.mem_cons_self m l)),
      ih (fun x hx => h x (List.mem_cons_of_mem _ hx))]
    rfl

theorem executeTrace_short_circuit :
    ∀ (l1 : List Middleware) (m : Middleware) (l2 : List Middleware),
      (∀ x ∈ l1, x.callsNext) → m.callsNext = false →
      executeTrace (l1 ++ m :: l2) = (l1.map (·.name) ++ [m.name], false) := by
  intro l1
  induction l1 with
  | nil =>
    intro m l2 _ hm
    rw [List.nil_append, executeTrace, hm]
    simp
  | cons a l1 ih =>
    intro m l2 h1 hm
    rw [List.cons_append, executeTrace,
      if_pos (h1 a (List.mem_cons_self a l1)),
      ih m l2 (fun x hx => h1 x (List.mem_cons_of_mem _ hx)) hm]
    rfl

/-- C6: registering middlewares keeps the manager's list sorted by strictly
descending priority with ties in registration order (the filter equality:
for every priority value, the equal-priority middlewares appear exactly in
registration order), and execute() runs that list front to back through
the next() chain: when every middleware calls next() all run in that order
and control returns to the caller (so the injected terminal route-dispatch
step runs); a middleware that does not call next() cuts the chain after
itself, so no later (lower-priority) middleware and no terminal dispatch
runs. -/
theorem C6_middleware_priority_chain (ms l : List Middleware)
    (hreg : mwRegisterAll ms = .ok l) :
    MwSorted l ∧
    (∀ q : Int, l.filter (fun x => x.priority == q) =
      ms.filter (fun x => x.priority == q)) ∧
    ((∀ m ∈ l, m.callsNext) → executeTrace l = (l.map (·.name), true)) ∧
    (∀ l1 m l2, l = l1 ++ m :: l2 → (∀ x ∈ l1, x.callsNext) →
      m.callsNext = false →
      executeTrace l = (l1.map (·.name) ++ [m.name], false)) := by
  obtain ⟨hs, hfil⟩ := mwRegisterAll_ok hreg
  refine ⟨hs, hfil, executeTrace_all_next l, ?_⟩
  intro l1 m l2 hdecomp h1 hm
  rw [hdecomp]
  exact executeTrace_short_circuit l1 m l2 h1 hm

theorem C6_witness :
    mwRegisterAll [⟨"m10", 10, true⟩, ⟨"m50", 50, true⟩, ⟨"m30", 30, true⟩] =
      .ok [⟨"m50", 50, true⟩, ⟨"m30", 30, true⟩, ⟨"m10", 10, true⟩] ∧
    executeTrace [⟨"m50", 50, true⟩, ⟨"m30", 30, true⟩, ⟨"m10", 10, true⟩] =
      (["m50", "m30", "m10"], true) ∧
    (MwSorted [⟨"m50", 50, true⟩, ⟨"m30", 30, true⟩, ⟨"m10", 10, true⟩] ∧
    (∀ q : Int,
      ([⟨"m50", 50, true⟩, ⟨"m30", 30, true⟩,
        ⟨"m10", 10, true⟩] : List Middleware).filter (fun x => x.priority == q) =
      ([⟨"m10", 10, true⟩, ⟨"m50", 50, true⟩,
        ⟨"m30", 30, true⟩] : List Middleware).filter (fun x => x.priority == q)) ∧
    ((∀ m ∈ ([⟨"m50", 50, true⟩, ⟨"m30", 30, true⟩,
        ⟨"m10", 10, true⟩] : List Middleware), m.callsNext) →
      executeTrace [⟨"m50", 50, true⟩, ⟨"m30", 30, true⟩, ⟨"m10", 10, true⟩] =
        ((([⟨"m50", 50, true⟩, ⟨"m30", 30, true⟩,
          ⟨"m10", 10, true⟩] : List Middleware)).map (·.name), true)) ∧
    (∀ l1 m l2, ([⟨"m50", 50, true⟩, ⟨"m30", 30, true⟩,
        ⟨"m10", 10, true⟩] : List Middleware) = l1 ++ m :: l2 →
      (∀ x ∈ l1, x.callsNext) → m.callsNext = false →
      executeTrace [⟨"m50", 50, true⟩, ⟨"m30", 30, true⟩, ⟨"m10", 10, true⟩] =
        (l1.map (·.name) ++ [m.name], false))) :=
  ⟨by decide, by decide,
    C6_middleware_priority_chain
      [⟨"m10", 10, true⟩, ⟨"m50", 50, true⟩, ⟨"m30", 30, true⟩]
      [⟨"m50", 50, true⟩, ⟨"m30", 30, true⟩, ⟨"m10", 10, true⟩]
      (by decide)⟩

/-! The custom HttpServer of api-routes-module.ts.  String primitives are
embedded over character lists so concrete requests evaluate inside the
kernel; they model the JavaScript operations used by the source
(String.prototype.split with a one-character separator, includes,
startsWith via a leading-character test, toUpperCase on ASCII method
names). -/

def splitGo (sep : Char) : List Char → List Char → List String
  | [], acc => [String.mk acc.reverse]
  | c :: cs, acc =>
    if c == sep then String.mk acc.reverse :: splitGo sep cs []
    else splitGo sep cs (c :: acc)

/-- JavaScript str.split(sep) for a single-character separator: all chunks,
empty ones included. -/
def sSplit (sep : Char) (s : String) : List String := splitGo sep s.data []

def listPrefixOf : List Char → List Char → Bool
  | [], _ => true
  | _ :: _, [] => false
  | a :: as, b :: bs => a == b && listPrefixOf as bs

def listContainsSub (needle : List Char) : List Char → Bool
  | [] => listPrefixOf needle []
  | c :: t => listPrefixOf needle (c :: t) || listContainsSub needle t

/-- JavaScript haystack.includes(needle). -/
def subStr (needle hay : String) : Bool := listContainsSub needle.data hay.data

/-- JavaScript toUpperCase restricted to ASCII (HTTP method names). -/
def upChar (c : Char) : Char :=
  if 'a' ≤ c ∧ c ≤ 'z' then Char.ofNat (c.toNat - 32) else c

def upper (s : String) : String := String.mk (s.data.map upChar)

/-- Parsed JSON values (JSON.parse results).  Numbers are restricted to
integers, which suffices for the verified behaviour. -/
inductive Json where
  | null
  | bool (b : Bool)
  | num (n : Int)
  | str (s : String)
  | arr (elems : List Json)
  | obj (fields : List (String × Json))

def skipWs : List Char → List Char
  | [] => []
  | c :: cs => if c == ' ' ∨ c == '\t' ∨ c == '\n' ∨ c == '\r' then skipWs cs else c :: cs

/-- Characters of a JSON string literal up to the closing quote (escape
sequences are not modelled). -/
def strChars : List Char → Option (List Char × List Char)
  | [] => none
  | c :: r =>
    if c == '"' then some ([], r)
    else (strChars r).map (fun p => (c :: p.1, p.2))

def digitsGo : List Char → Nat → Nat → Option (Nat × List Char)
  | [], 0, _ => none
  | [], _ + 1, acc => some (acc, [])
  | c :: cs, n, acc =>
    if '0' ≤ c ∧ c ≤ '9' then digitsGo cs (n + 1) (acc * 10 + (c.toNat - 48))
    else match n with
      | 0 => none
      | _ + 1 => some (acc, c :: cs)

def parseNumFrom : List Char → Option (Json × List Char)
  | '-' :: r => (digitsGo r 0 0).map (fun p => (.num (-(p.1 : Int)), p.2))
  | cs => (digitsGo cs 0 0).map (fun p => (.num (p.1 : Int), p.2))

/-- Recursive-descent JSON parser (a model of the platform's JSON.parse),
fuelled; mode 0 parses a value, mode 1 the remaining fields of an object,
mode 2 the remaining items of an array. -/
def pj : Nat → Nat → List Char → Option (Json × List Char)
  | 0, _, _ => none
  | f + 1, 0, cs =>
    match skipWs cs with
    | [] => none
    | c :: rest =>
      if c == '\x7b' then
        match skipWs rest with
        | '\x7d' :: r => some (.obj [], r)
        | _ => pj f 1 rest
      else if c == '[' then
        match skipWs rest with
        | ']' :: r => some (.arr [], r)
        | _ => pj f 2 rest
      else if c == '"' then (strChars rest).map (fun p => (.str (String.mk p.1), p.2))
      else if c == 't' then
        match rest with
        | 'r' :: 'u' :: 'e' :: r => some (.bool true, r)
        | _ => none
      else if c == 'f' then
        match rest with
        | 'a' :: 'l' :: 's' :: 'e' :: r => some (.bool false, r)
        | _ => none
      else if c == 'n' then
        match rest with
        | 'u' :: 'l' :: 'l' :: r => some (.null, r)
        | _ => none
      else parseNumFrom (c :: rest)
  | f + 1, 1, cs =>
    match skipWs cs with
    | '"' :: r1 =>
      match strChars r1 with
      | some (k, r2) =>
        (match skipWs r2 with
        | ':' :: r3 =>
          match pj f 0 r3 with
          | some (v, r4) =>
            (match skipWs r4 with
            | ',' :: r5 =>
              (match pj f 1 r5 with
              | some (.obj fs, r6) => some (.obj ((String.mk k, v) :: fs), r6)
              | _ => none)
            | '\x7d' :: r5 => some (.obj [(String.mk k, v)], r5)
            | _ => none)
          | none => none
        | _ => none)
      | none => none
    | _ => none
  | f + 1, 2, cs =>
    match pj f 0 cs with
    | some (v, r1) =>
      (match skipWs r1 with
      | ',' :: r2 =>
        (match pj f 2 r2 with
        | some (.arr js, r3) => some (.arr (v :: js), r3)
        | _ => none)
      | ']' :: r2 => some (.arr [v], r2)
      | _ => none)
    | none => none
  | _ + 1, _ + 3, _ => none

/-- JSON.parse: a full-input parse producing a value, or failure (which the
source surfaces as a thrown SyntaxError). -/
def parseJson (s : String) : Option Json :=
  match pj (s.data.length + 2) 0 s.data with
  | some (j, rest) => if skipWs rest = [] then some j else none
  | none => none

example : parseJson "\x7b\x22a\x22:1\x7d" = some (.obj [("a", .num 1)]) := rfl
example : parseJson "\x7b" = none := rfl
example : parseJson "  \x7b \x22a\x22 : [1, 2] \x7d " =
    some (.obj [("a", .arr [.num 1, .num 2])]) := rfl

/-- Assoc-list update-or-append: JavaScript Map.set (replaces the value in
place, keeping the original insertion position) and object property
assignment (params[name] = value). -/
def assocSet {α : Type} : List (String × α) → String → α → List (String × α)
  | [], k, v => [(k, v)]
  | (k0, v0) :: rest, k, v =>
    if k0 == k then (k, v) :: rest else (k0, v0) :: assocSet rest k v

/-- Assoc-list lookup: Map.get. -/
def assocGet {α : Type} (l : List (String × α)) (k : String) : Option α :=
  (l.find? (fun p => p.1 == k)).map (·.2)

/-- A registered route handler, abstractly: an identifier and whether
invoking it throws. -/
structure RouteHandler where
  hid : Nat
  throws : Bool
deriving DecidableEq

/-- What a middleware registered on the HttpServer does with the request:
call next() once, return without calling it (after writing its own
response), or throw. -/
inductive MwAction where
  | next
  | stop
  | throw
deriving DecidableEq

structure HttpMw where
  name : String
  action : MwAction
deriving DecidableEq

structure CorsConfig where
  origin : Option String
  credentials : Bool
deriving DecidableEq

structure SrvConfig where
  cors : Option CorsConfig
deriving DecidableEq

/-- HttpServer state relevant to request handling: configuration, the
routes Map keyed by METHOD:path, and the middleware array in
registration order. -/
structure HttpSrv where
  config : SrvConfig
  routes : List (String × RouteHandler)
  middlewares : List HttpMw

/-- HttpServer.registerRoute: routes.set(method.toUpperCase() + ":" + path,
handler) - no duplicate check, Map.set silently replaces. -/
def registerRoute (srv : HttpSrv) (method path : String) (h : RouteHandler) :
    HttpSrv :=
  { srv with routes := assocSet srv.routes (upper method ++ ":" ++ path) h }

/-- A parsed request body: JSON.parse result for JSON content types, the
raw string otherwise. -/
inductive BodyVal where
  | json (j : Json)
  | raw (s : String)

/-- An incoming raw request: method, URL, the content-type header ("" when
absent) and the buffered body text. -/
structure Conn where
  method : String
  url : String
  contentType : String
  bodyRaw : String

/-- The parsed request object handed to middlewares and handlers. -/
structure HttpRequest where
  method : String
  url : String
  pathname : String
  body : Option BodyVal
  params : List (String × String)

/-- new URL(req.url, base).pathname: the part of the URL before the query
string. -/
def pathOf (url : String) : String := (sSplit '?' url).headD url

/-- HttpServer.parseBody: JSON content types get JSON.parse (empty body
becomes the empty object, a parse failure rejects, i.e. none); other
content types pass the raw string through. -/
def parseBody (c : Conn) : Option BodyVal :=
  if subStr "application/json" c.contentType then
    if c.bodyRaw = "" then some (.json (.obj []))
    else (parseJson c.bodyRaw).map .json
  else some (.raw c.bodyRaw)

/-- HttpServer.parseRequest: buffer and parse the body for POST/PUT/PATCH
(none = the parse threw and the request is aborted); params start
empty. -/
def parseRequest (c : Conn) : Option HttpRequest :=
  if c.method ∈ ["POST", "PUT", "PATCH"] then
    (parseBody c).map (fun b =>
      ⟨c.method, c.url, pathOf c.url, some b, []⟩)
  else some ⟨c.method, c.url, pathOf c.url, none, []⟩

def ctJson : String × String := ("Content-Type", "application/json")
def ctText : String × String := ("Content-Type", "text/plain")

/-- HttpServer.applyCORSHeaders: origin (configured or *), the fixed
methods and headers lists, and the credentials header only when
configured.  config.cors?.origin || "*" treats a missing cors section, a
missing origin and an empty origin (falsy) all as *. -/
def corsHeaders (cfg : SrvConfig) : List (String × String) :=
  let origin := match cfg.cors with
    | some c => match c.origin with
      | some o => if o = "" then "*" else o
      | none => "*"
    | none => "*"
  let credentials := match cfg.cors with
    | some c => c.credentials
    | none => false
  [("Access-Control-Allow-Origin", origin),
   ("Access-Control-Allow-Methods", "GET, POST, PUT, DELETE, PATCH, OPTIONS"),
   ("Access-Control-Allow-Headers", "Content-Type, Authorization, X-Requested-With")] ++
  (if credentials then [("Access-Control-Allow-Credentials", "true")] else [])

/-- HttpServer.matchRoute's segment loop. -/
def matchSegs : List String → List String → List (String × String) →
    Option (List (String × String))
  | [], [], params => some params
  | p :: ps, q :: qs, params =>
    if p = "" ∨ q = "" then none
    else
      match p.data with
      | ':' :: rest => matchSegs ps qs (assocSet params (String.mk rest) q)
      | _ => if p ≠ q then none else matchSegs ps qs params
  | _, _, _ => none

/-- HttpServer.matchRoute: split pattern and pathname on /, require equal
segment counts, then walk the segments (the falsy check rejects empty
segments on either side - including the leading empty segment that
split("/") yields for every absolute path). -/
def matchRoute (pattern pathname : String) :
    Option (List (String × String)) :=
  let pp := sSplit '/' pattern
  let qq := sSplit '/' pathname
  if pp.length ≠ qq.length then none
  else matchSegs pp qq []

/-- HttpServer.findParameterizedRoute: scan the routes Map; destructuring
const [routeMethod, routePath] = routeKey.split(":") keeps only the first
two chunks, so a pattern containing : is truncated at its second colon. -/
def findParameterizedRoute (routes : List (String × RouteHandler))
    (method pathname : String) :
    Option (RouteHandler × List (String × String)) :=
  routes.findSome? (fun p =>
    let parts := sSplit ':' p.1
    let routeMethod := (parts.get? 0).getD ""
    let routePath := (parts.get? 1).getD ""
    if routeMethod ≠ method ∨ routePath = "" then none
    else (matchRoute routePath pathname).map (fun ps => (p.2, ps)))

/-- Outcome of request handling, as observable at the socket: either the
server itself wrote a response (status, accumulated headers, body), or a
registered handler was invoked with the parsed request. -/
inductive HOut where
  | served (status : Nat) (headers : List (String × String)) (body : String)
  | handled (hid : Nat) (req : HttpRequest)
  | shortCircuit (mwName : String)

/-- Intermediate result inside handleRequest: a finished outcome, or an
exception propagating to createServer's catch (which then writes the 500
response on the raw res; hdrs records the headers already set on res). -/
inductive HStep where
  | done (o : HOut)
  | thrown (hdrs : List (String × String))

/-- JSON.stringify({error: msg}). -/
def errBody (msg : String) : String := "\x7b\x22error\x22:\x22" ++ msg ++ "\x22\x7d"

/-- HttpServer.executeRoute: exact METHOD:pathname Map lookup first, then
the parameterized scan; with no match, sendErrorResponse is called on the
response wrapper object, which has no setHeader/end methods, so the call
throws a TypeError (modelled as thrown).  A throwing handler also
propagates. -/
def executeRoute (srv : HttpSrv) (req : HttpRequest)
    (hdrs : List (String × String)) : HStep :=
  match assocGet srv.routes (req.method ++ ":" ++ req.pathname) with
  | some h => if h.throws then .thrown hdrs else .done (.handled h.hid req)
  | none =>
    match findParameterizedRoute srv.routes req.method req.pathname with
    | some (h, ps) =>
      if h.throws then .thrown hdrs
      else .done (.handled h.hid { req with params := ps })
    | none => .thrown hdrs

/-- The middleware chain of HttpServer.handleRequest: registration order,
each middleware either passes to next() (eventually reaching
executeRoute), stops, or throws. Also returns the names of the
middlewares that ran. -/
def runChain (srv : HttpSrv) (req : HttpRequest)
    (hdrs : List (String × String)) :
    List HttpMw → List String → HStep × List String
  | [], trace => (executeRoute srv req hdrs, trace.reverse)
  | mw :: rest, trace =>
    match mw.action with
    | .next => runChain srv req hdrs rest (mw.name :: trace)
    | .stop => (.done (.shortCircuit mw.name), (mw.name :: trace).reverse)
    | .throw => (.thrown hdrs, (mw.name :: trace).reverse)

/-- Full request handling: createServer's try/catch around handleRequest.
Parse the request (a body-parse rejection propagates before any header is
set), apply CORS headers, short-circuit OPTIONS with an empty 200
(status(200).send("") also sets the text/plain content type), otherwise
run the middleware chain into route dispatch; any thrown error becomes
the 500 Internal Server Error JSON response written on the raw res.
The second component is the list of middleware names that executed. -/
def serve (srv : HttpSrv) (c : Conn) : HOut × List String :=
  match parseRequest c with
  | none => (.served 500 [ctJson] (errBody "Internal Server Error"), [])
  | some req =>
    let hdrs := corsHeaders srv.config
    if req.method = "OPTIONS" then
      (.served 200 (hdrs ++ [ctText]) "", [])
    else
      match runChain srv req hdrs srv.middlewares [] with
      | (.done o, t) => (o, t)
      | (.thrown hs, t) =>
        (.served 500 (hs ++ [ctJson]) (errBody "Internal Server Error"), t)

/-- C8: every OPTIONS request short-circuits right after the CORS headers:
status 200, empty body (send("") also sets the text/plain content type),
no middleware executed and no route handler invoked, regardless of the
registered routes. -/
theorem C8_options_preflight (srv : HttpSrv) (c : Conn)
    (h : c.method = "OPTIONS") :
    serve srv c = (.served 200 (corsHeaders srv.config ++ [ctText]) "", []) := by
  unfold serve parseRequest
  rw [h]
  have hmem : ("OPTIONS" ∈ ["POST", "PUT", "PATCH"]) = False := by decide
  simp [hmem]

theorem C8_witness :
    (⟨"OPTIONS", "/missing/route", "", ""⟩ : Conn).method = "OPTIONS" ∧
    serve ⟨⟨some ⟨some "https://app.example", true⟩⟩, [], [⟨"logger", .next⟩]⟩
        ⟨"OPTIONS", "/missing/route", "", ""⟩ =
      (.served 200
        (corsHeaders ⟨some ⟨some "https://app.example", true⟩⟩ ++ [ctText]) "",
        []) :=
  ⟨rfl,
    C8_options_preflight ⟨⟨some ⟨some "https://app.example", true⟩⟩, [],
      [⟨"logger", .next⟩]⟩ ⟨"OPTIONS", "/missing/route", "", ""⟩ rfl⟩

/-- Concrete server for the C4 divergence: one literal route, no
middleware. -/
def srvC4 : HttpSrv := ⟨⟨none⟩, [("GET:/health", ⟨1, false⟩)], []⟩

/-- C4 is half right on the code.  An unmatched request does reach
executeRoute's no-match branch, but sendErrorResponse is invoked there on
the response wrapper - an object with only status/json/send/header
methods and no setHeader/end - so the attempted 404 write throws a
TypeError and createServer's catch sends 500 Internal Server Error
instead of the claimed 404 Not Found.  The 500-on-uncaught-exception half
(here: a malformed JSON body) does hold. -/
theorem C4_divergence :
    serve srvC4 ⟨"GET", "/nope", "", ""⟩ =
      (.served 500 (corsHeaders srvC4.config ++ [ctJson])
        (errBody "Internal Server Error"), []) ∧
    serve srvC4 ⟨"POST", "/health", "application/json", "\x7b"⟩ =
      (.served 500 [ctJson] (errBody "Internal Server Error"), []) ∧
    errBody "Internal Server Error" ≠ errBody "Not Found" :=
  ⟨rfl, rfl, by decide⟩

/-- C7: for POST/PUT/PATCH the buffered body is parsed before dispatch:
with a JSON content type, an empty body yields the empty object, a body
that JSON.parse accepts yields the parsed value, and a body that
JSON.parse rejects aborts the request with the 500 error response; with
any other content type the raw body string passes through.  The final
conjunct fixes the parser on the spec's example body. -/
theorem C7_body_parsing (srv : HttpSrv) (c : Conn)
    (hm : c.method ∈ ["POST", "PUT", "PATCH"]) :
    (subStr "application/json" c.contentType = true → c.bodyRaw = "" →
      parseRequest c =
        some ⟨c.method, c.url, pathOf c.url, some (.json (.obj [])), []⟩) ∧
    (∀ j, subStr "application/json" c.contentType = true →
      parseJson c.bodyRaw = some j →
      parseRequest c =
        some ⟨c.method, c.url, pathOf c.url, some (.json j), []⟩) ∧
    (subStr "application/json" c.contentType = true →
      parseJson c.bodyRaw = none → c.bodyRaw ≠ "" →
      serve srv c =
        (.served 500 [ctJson] (errBody "Internal Server Error"), [])) ∧
    (subStr "application/json" c.contentType = false →
      parseRequest c =
        some ⟨c.method, c.url, pathOf c.url, some (.raw c.bodyRaw), []⟩) ∧
    parseJson "\x7b\x22a\x22:1\x7d" = some (.obj [("a", .num 1)]) := by
  refine ⟨?_, ?_, ?_, ?_, rfl⟩
  · intro hct hempty
    unfold parseRequest parseBody
    rw [if_pos hm, if_pos hct, if_pos hempty]
    rfl
  · intro j hct hj
    have hne : c.bodyRaw ≠ "" := by
      intro hc
      rw [hc] at hj
      exact absurd hj (by rw [show parseJson "" = none from rfl]; simp)
    unfold parseRequest parseBody
    rw [if_pos hm, if_pos hct, if_neg hne, hj]
    rfl
  · intro hct hj hne
    have hpr : parseRequest c = none := by
      unfold parseRequest parseBody
      rw [if_pos hm, if_pos hct, if_neg hne, hj]
      rfl
    unfold serve
    rw [hpr]
  · intro hct
    unfold parseRequest parseBody
    rw [if_pos hm, if_neg (by rw [hct]; exact Bool.false_ne_true)]
    rfl

theorem C7_witness :
    (⟨"POST", "/submit", "application/json", "\x7b\x22a\x22:1\x7d"⟩ : Conn).method ∈
      ["POST", "PUT", "PATCH"] ∧
    parseRequest ⟨"POST", "/submit", "application/json", "\x7b\x22a\x22:1\x7d"⟩ =
      some ⟨"POST", "/submit", "/submit", some (.json (.obj [("a", .num 1)])), []⟩ :=
  ⟨by decide,
    (C7_body_parsing ⟨⟨none⟩, [], []⟩
      ⟨"POST", "/submit", "application/json", "\x7b\x22a\x22:1\x7d"⟩
      (by decide)).2.1 (.obj [("a", .num 1)]) rfl rfl⟩

/-- Concrete server for the C3 divergence: GET /users/:id registered
through HttpServer.registerRoute. -/
def srvC3 : HttpSrv := registerRoute ⟨⟨none⟩, [], []⟩ "get" "/users/:id" ⟨1, false⟩

/-- C3 fails on the code.  The route is stored under GET:/users/:id, but
(a) findParameterizedRoute destructures routeKey.split(":") into two
names, truncating the pattern to /users/ (the :id chunk is dropped), and
(b) matchRoute splits on / and rejects any empty segment, so the leading
empty segment of every absolute path already kills the match.  Hence
GET /users/42 matches nothing and even the would-be 404 turns into the
500 of the broken sendErrorResponse call (see C4); GET /users/42/extra
behaves the same.  No params are ever extracted. -/
theorem C3_divergence :
    srvC3.routes = [("GET:/users/:id", ⟨1, false⟩)] ∧
    sSplit ':' "GET:/users/:id" = ["GET", "/users/", "id"] ∧
    matchRoute "/users/:id" "/users/42" = none ∧
    matchRoute "/users/" "/users/42" = none ∧
    findParameterizedRoute srvC3.routes "GET" "/users/42" = none ∧
    serve srvC3 ⟨"GET", "/users/42", "", ""⟩ =
      (.served 500 (corsHeaders srvC3.config ++ [ctJson])
        (errBody "Internal Server Error"), []) ∧
    serve srvC3 ⟨"GET", "/users/42/extra", "", ""⟩ =
      (.served 500 (corsHeaders srvC3.config ++ [ctJson])
        (errBody "Internal Server Error"), []) :=
  ⟨rfl, rfl, rfl, rfl, rfl, rfl, rfl⟩

/-- A route record of RouteManager (route-manager.ts); the handler is
embedded as an identifier, and the middleware/description/tags options do
not participate in the registration key. -/
structure RMRoute where
  method : String
  path : String
  hid : Nat
deriving DecidableEq

/-- RouteManager.register: key = method.toUpperCase() + ":" + path;
a duplicate key throws, otherwise the route is stored. -/
def rmRegister (routes : List (String × RMRoute)) (method path : String)
    (hid : Nat) : Except String (List (String × RMRoute)) :=
  let key := upper method ++ ":" ++ path
  if (routes.find? (fun p => p.1 == key)).isSome then
    .error ("Route " ++ key ++ " is already registered")
  else .ok (routes ++ [(key, ⟨method, path, hid⟩)])

theorem assocGet_assocSet_self {α : Type} (k : String) (v : α) :
    ∀ l : List (String × α), assocGet (assocSet l k v) k = some v := by
  intro l
  induction l with
  | nil => simp [assocSet, assocGet]
  | cons p l ih =>
    rw [assocSet]
    by_cases hk : p.1 == k
    · rw [if_pos hk]
      simp [assocGet]
    · rw [if_neg hk]
      unfold assocGet at ih ⊢
      rw [List.find?_cons_of_neg _ (by simpa using hk)]
      exact ih

/-- C10: HttpServer.registerRoute never raises on a duplicate (method,
path): the second registration silently replaces the first in place, and
a matching request (exact METHOD:pathname lookup) is dispatched to the
most recently registered handler; RouteManager.register, by contrast,
throws on the duplicate key. -/
theorem C10_duplicate_route_replaces (srv : HttpSrv) (m p : String)
    (h1 h2 : RouteHandler) (req : HttpRequest) (hdrs : List (String × String))
    (hm : req.method = upper m) (hp : req.pathname = p)
    (hth : h2.throws = false) :
    assocGet (registerRoute (registerRoute srv m p h1) m p h2).routes
      (upper m ++ ":" ++ p) = some h2 ∧
    executeRoute (registerRoute (registerRoute srv m p h1) m p h2) req hdrs =
      .done (.handled h2.hid req) ∧
    (∀ (routes routes2 : List (String × RMRoute)) (hid hid2 : Nat),
      rmRegister routes m p hid = .ok routes2 →
      ∃ msg, rmRegister routes2 m p hid2 = .error msg) := by
  have hget : assocGet (registerRoute (registerRoute srv m p h1) m p h2).routes
      (upper m ++ ":" ++ p) = some h2 := by
    unfold registerRoute
    exact assocGet_assocSet_self _ _ _
  refine ⟨hget, ?_, ?_⟩
  · unfold executeRoute
    rw [hm, hp, hget]
    dsimp only
    rw [hth]
    simp
  · intro routes routes2 hid hid2 hreg
    unfold rmRegister at hreg ⊢
    by_cases hdup : ((routes.find? (fun q => q.1 == upper m ++ ":" ++ p)).isSome : Prop)
    · rw [if_pos hdup] at hreg
      exact absurd hreg (by simp)
    · rw [if_neg hdup] at hreg
      injection hreg with hreg
      subst hreg
      refine ⟨"Route " ++ (upper m ++ ":" ++ p) ++ " is already registered", ?_⟩
      rw [if_pos ?_]
      rw [List.find?_isSome]
      exact ⟨(upper m ++ ":" ++ p, ⟨m, p, hid⟩),
        List.mem_append_right _ (List.mem_singleton.mpr rfl), by simp⟩

theorem C10_witness :
    ((⟨"GET", "/health", "/health", none, []⟩ : HttpRequest).method =
      upper "get" ∧
    (⟨"GET", "/health", "/health", none, []⟩ : HttpRequest).pathname =
      "/health" ∧
    (⟨2, false⟩ : RouteHandler).throws = false) ∧
    (assocGet (registerRoute (registerRoute ⟨⟨none⟩, [], []⟩ "get" "/health"
        ⟨1, false⟩) "get" "/health" ⟨2, false⟩).routes
      (upper "get" ++ ":" ++ "/health") = some ⟨2, false⟩ ∧
    executeRoute (registerRoute (registerRoute ⟨⟨none⟩, [], []⟩ "get" "/health"
        ⟨1, false⟩) "get" "/health" ⟨2, false⟩)
        ⟨"GET", "/health", "/health", none, []⟩ [] =
      .done (.handled 2 ⟨"GET", "/health", "/health", none, []⟩) ∧
    (∀ (routes routes2 : List (String × RMRoute)) (hid hid2 : Nat),
      rmRegister routes "get" "/health" hid = .ok routes2 →
      ∃ msg, rmRegister routes2 "get" "/health" hid2 = .error msg)) :=
  ⟨⟨by decide, rfl, rfl⟩,
    C10_duplicate_route_replaces ⟨⟨none⟩, [], []⟩ "get" "/health"
      ⟨1, false⟩ ⟨2, false⟩ ⟨"GET", "/health", "/health", none, []⟩ []
      (by decide) rfl rfl⟩
